import Mathlib

/-!
Shallow embedding of the `meshr` mesh-processing library and proofs about it.

Conventions used throughout this development:
* `f64` values are modelled as exact fractions (`Q` below): a numerator and a
  (positive) denominator, compared by cross multiplication.  Every concrete
  input we evaluate uses small integer or small dyadic values, on which IEEE
  double arithmetic is exact, so this model computes the very values the Rust
  code computes.  Where a routine's behaviour on infinities matters
  (`HeMesh::bounds` starts its running min/max from `±∞`), a dedicated
  extended type `F` with IEEE-style `±∞` and `NaN` is used.
* `usize` indices are `ℕ`.  Rust's panicking index operations are modelled by
  `List.getD _ _ default`; every theorem below either hypothesises the bounds
  under which the Rust code does not panic or only evaluates in-range inputs.
* Rust `Vec`/`HashMap` become `List`/association lists.  The source only ever
  iterates a `HashMap` in `HeMesh::build_links`, where the iterated entries
  touch pairwise disjoint indices, so the model's fixed iteration order yields
  the same result as any hash order.
-/

namespace Meshr

/-! ### Exact model of `f64` arithmetic -/

/-- An exact fraction standing in for a finite `f64` value.  The denominator is
kept positive by construction (literals use positive denominators and the
arithmetic below multiplies denominators), which makes the cross-multiplied
comparisons below the true numeric comparisons. -/
structure Q where
  n : Int
  d : Int
deriving DecidableEq, Repr

instance : Inhabited Q := ⟨⟨0, 1⟩⟩

namespace Q

/-- Embed an integer-valued `f64`. -/
def ofInt (i : Int) : Q := ⟨i, 1⟩

def zero : Q := ⟨0, 1⟩

def add (a b : Q) : Q := ⟨a.n * b.d + b.n * a.d, a.d * b.d⟩

def sub (a b : Q) : Q := ⟨a.n * b.d - b.n * a.d, a.d * b.d⟩

def mul (a b : Q) : Q := ⟨a.n * b.n, a.d * b.d⟩

def neg (a : Q) : Q := ⟨-a.n, a.d⟩

def habs (a : Q) : Q := ⟨|a.n|, a.d⟩

/-- Numeric `<` on fractions with positive denominators. -/
def lt (a b : Q) : Bool := a.n * b.d < b.n * a.d

/-- Numeric `≤` on fractions with positive denominators. -/
def le (a b : Q) : Bool := a.n * b.d ≤ b.n * a.d

/-- Numeric equality (`f64 ==`) on fractions with positive denominators. -/
def beq (a b : Q) : Bool := a.n * b.d == b.n * a.d

end Q

/-! ### Geometry kernel (`src/geometry/vector3.rs`, `triangle.rs`, `aabb.rs`) -/

/-- Geometric tolerance (`src/geometry.rs`: `EPSILON: f64 = 1e-8`). -/
def EPSILON : Q := ⟨1, 100000000⟩

/-- `Vector3` (`src/geometry/vector3.rs`): three double-precision components. -/
structure Vector3 where
  x : Q
  y : Q
  z : Q
deriving DecidableEq, Repr

instance : Inhabited Vector3 := ⟨⟨default, default, default⟩⟩

namespace Vector3

def zeros : Vector3 := ⟨Q.zero, Q.zero, Q.zero⟩

/-- `Vector3::dot`. -/
def dot (u v : Vector3) : Q :=
  ((u.x.mul v.x).add (u.y.mul v.y)).add (u.z.mul v.z)

/-- `Vector3::cross`. -/
def cross (u v : Vector3) : Vector3 :=
  ⟨(u.y.mul v.z).sub (u.z.mul v.y),
   (u.z.mul v.x).sub (u.x.mul v.z),
   (u.x.mul v.y).sub (u.y.mul v.x)⟩

/-- `Index<usize> for Vector3`; the source panics for `index ≥ 3`, which never
occurs at the call sites we model (indices are `0..3` or a `max_index`). -/
def nth (v : Vector3) (i : ℕ) : Q :=
  match i with
  | 0 => v.x
  | 1 => v.y
  | 2 => v.z
  | _ => default

/-- `Vector3::abs`. -/
def vabs (v : Vector3) : Vector3 := ⟨v.x.habs, v.y.habs, v.z.habs⟩

/-- `Vector3::max_index`: the loop `for i in 1..3 { if self[i] > value … }`
unrolled. -/
def max_index (v : Vector3) : ℕ :=
  let p := if v.x.lt v.y then ((1 : ℕ), v.y) else ((0 : ℕ), v.x)
  if p.2.lt v.z then 2 else p.1

def add (u v : Vector3) : Vector3 := ⟨u.x.add v.x, u.y.add v.y, u.z.add v.z⟩

def sub (u v : Vector3) : Vector3 := ⟨u.x.sub v.x, u.y.sub v.y, u.z.sub v.z⟩

/-- `Vector3 * f64` (componentwise scalar multiplication). -/
def smul (u : Vector3) (s : Q) : Vector3 := ⟨u.x.mul s, u.y.mul s, u.z.mul s⟩

end Vector3

/-- `Triangle` (`src/geometry/triangle.rs`). -/
structure Triangle where
  p : Vector3
  q : Vector3
  r : Vector3
deriving DecidableEq, Repr

instance : Inhabited Triangle := ⟨⟨default, default, default⟩⟩

namespace Triangle

/-- `Triangle::normal`: `(q - p) × (r - p)`. -/
def normal (t : Triangle) : Vector3 :=
  Vector3.cross (Vector3.sub t.q t.p) (Vector3.sub t.r t.p)

end Triangle

/-- `Aabb` (`src/geometry/aabb.rs`): a center and half-size. -/
structure Aabb where
  center : Vector3
  halfsize : Vector3
deriving DecidableEq, Repr

instance : Inhabited Aabb := ⟨⟨default, default⟩⟩

namespace Aabb

/-- `Aabb::min`. -/
def lo (a : Aabb) : Vector3 := a.center.sub a.halfsize

/-- `Aabb::max`. -/
def hi (a : Aabb) : Vector3 := a.center.add a.halfsize

/-- `Aabb::unit`: unit cube centered at the origin. -/
def unit : Aabb := ⟨Vector3.zeros, ⟨⟨1, 2⟩, ⟨1, 2⟩, ⟨1, 2⟩⟩⟩

/-- `Aabb::octant`: Morton-encoded child box.  The source panics for
`octant ≥ 8`; all call sites use `octant < 8`. -/
def octant (a : Aabb) (k : ℕ) : Aabb :=
  let h := a.halfsize.smul ⟨1, 2⟩
  let dx := if k / 4 % 2 = 0 then h.x.neg else h.x
  let dy := if k / 2 % 2 = 0 then h.y.neg else h.y
  let dz := if k % 2 = 0 then h.z.neg else h.z
  ⟨a.center.add ⟨dx, dy, dz⟩, h⟩

end Aabb

/-- `intersects_aabb_vector3`
(`src/geometry/collision/intersects/aabb_vector3.rs`): closed containment. -/
def intersects_aabb_vector3 (a : Aabb) (v : Vector3) : Bool :=
  let mn := a.lo
  let mx := a.hi
  mn.x.le v.x && v.x.le mx.x && mn.y.le v.y && v.y.le mx.y &&
    mn.z.le v.z && v.z.le mx.z

/-! ### Triangle/triangle intersection
(`src/geometry/collision/intersects/triangle_triangle.rs`) -/

/-- The `Interval` record used by `compute_interval`. -/
structure Interval where
  a : Q
  b : Q
  c : Q
  x0 : Q
  x1 : Q
deriving DecidableEq, Repr

instance : Inhabited Interval :=
  ⟨⟨Q.zero, Q.zero, Q.zero, Q.zero, Q.zero⟩⟩

/-- `compute_interval`: returns the interval data and the coplanarity flag. -/
def compute_interval (vv : Vector3) (d0 d1 d2 d0d1 d0d2 : Q) : Interval × Bool :=
  if Q.zero.lt d0d1 then
    (⟨vv.z, (vv.x.sub vv.z).mul d2, (vv.y.sub vv.z).mul d2, d2.sub d0, d2.sub d1⟩, false)
  else if Q.zero.lt d0d2 then
    (⟨vv.y, (vv.x.sub vv.y).mul d1, (vv.z.sub vv.y).mul d1, d1.sub d0, d1.sub d2⟩, false)
  else if Q.zero.lt (d1.mul d2) || !(d0.beq Q.zero) then
    (⟨vv.x, (vv.y.sub vv.x).mul d0, (vv.z.sub vv.x).mul d0, d0.sub d1, d0.sub d2⟩, false)
  else if !(d1.beq Q.zero) then
    (⟨vv.y, (vv.x.sub vv.y).mul d1, (vv.z.sub vv.y).mul d1, d1.sub d0, d1.sub d2⟩, false)
  else if !(d2.beq Q.zero) then
    (⟨vv.z, (vv.x.sub vv.z).mul d2, (vv.y.sub vv.z).mul d2, d2.sub d0, d2.sub d1⟩, false)
  else
    (default, true)

/-- `edge_edge_test`. -/
def edge_edge_test (v0 u0 u1 : Vector3) (ax ay : Q) (i0 i1 : ℕ) : Bool :=
  let bx := (u0.nth i0).sub (u1.nth i0)
  let bb := (u0.nth i1).sub (u1.nth i1)
  let cx := (v0.nth i0).sub (u0.nth i0)
  let cy := (v0.nth i1).sub (u0.nth i1)
  let f := (ay.mul bx).sub (ax.mul bb)
  let d := (bb.mul cx).sub (bx.mul cy)
  if (Q.zero.lt f && Q.zero.le d && d.le f) || (f.lt Q.zero && d.le Q.zero && f.le d) then
    let e := (ax.mul cy).sub (ay.mul cx)
    if Q.zero.lt f then Q.zero.le e && e.le f else e.le Q.zero && f.le e
  else
    false

/-- `edge_against_tri_edges`. -/
def edge_against_tri_edges (v0 v1 u0 u1 u2 : Vector3) (i0 i1 : ℕ) : Bool :=
  let ax := (v1.nth i0).sub (v0.nth i0)
  let ay := (v1.nth i1).sub (v0.nth i1)
  edge_edge_test v0 u0 u1 ax ay i0 i1 ||
    edge_edge_test v0 u1 u2 ax ay i0 i1 ||
    edge_edge_test v0 u2 u0 ax ay i0 i1

/-- `point_in_tri`. -/
def point_in_tri (v0 u0 u1 u2 : Vector3) (i0 i1 : ℕ) : Bool :=
  let a0 := (u1.nth i1).sub (u0.nth i1)
  let b0 := ((u1.nth i0).sub (u0.nth i0)).neg
  let c0 := ((a0.neg).mul (u0.nth i0)).sub (b0.mul (u0.nth i1))
  let d0 := ((a0.mul (v0.nth i0)).add (b0.mul (v0.nth i1))).add c0
  let a1 := (u2.nth i1).sub (u1.nth i1)
  let b1 := ((u2.nth i0).sub (u1.nth i0)).neg
  let c1 := ((a1.neg).mul (u1.nth i0)).sub (b1.mul (u1.nth i1))
  let d1 := ((a1.mul (v0.nth i0)).add (b1.mul (v0.nth i1))).add c1
  let a2 := (u0.nth i1).sub (u2.nth i1)
  let b2 := ((u0.nth i0).sub (u2.nth i0)).neg
  let c2 := ((a2.neg).mul (u2.nth i0)).sub (b2.mul (u2.nth i1))
  let d2 := ((a2.mul (v0.nth i0)).add (b2.mul (v0.nth i1))).add c2
  Q.zero.lt (d0.mul d1) && Q.zero.lt (d0.mul d2)

/-- `coplanar_tri_tri`. -/
def coplanar_tri_tri (n v0 v1 v2 u0 u1 u2 : Vector3) : Bool :=
  let a := n.vabs
  let ii : ℕ × ℕ :=
    if a.y.lt a.x then
      if a.z.lt a.x then (1, 2) else (0, 1)
    else
      if a.y.lt a.z then (0, 1) else (0, 2)
  let i0 := ii.1
  let i1 := ii.2
  edge_against_tri_edges v0 v1 u0 u1 u2 i0 i1 ||
    edge_against_tri_edges v1 v2 u0 u1 u2 i0 i1 ||
    edge_against_tri_edges v2 v0 u0 u1 u2 i0 i1 ||
    point_in_tri v0 u0 u1 u2 i0 i1 ||
    point_in_tri u0 v0 v1 v2 i0 i1

/-- The clamping step of `intersects_triangle_triangle`:
`let du0 = if du0 < EPSILON { 0. } else { du0 };`.  Note the source compares
the signed value, not its absolute value. -/
def snap (d : Q) : Q := if d.lt EPSILON then Q.zero else d

/-- `intersects_triangle_triangle` (Möller interval overlap). -/
def intersects_triangle_triangle (t1 t2 : Triangle) : Bool :=
  let v0 := t1.p
  let v1 := t1.q
  let v2 := t1.r
  let u0 := t2.p
  let u1 := t2.q
  let u2 := t2.r
  let n1 := t1.normal
  let d1 := (Vector3.dot n1 v0).neg
  let du0 := snap ((Vector3.dot n1 u0).add d1)
  let du1 := snap ((Vector3.dot n1 u1).add d1)
  let du2 := snap ((Vector3.dot n1 u2).add d1)
  let du0du1 := du0.mul du1
  let du0du2 := du0.mul du2
  if Q.zero.lt du0du1 && Q.zero.lt du0du2 then false
  else
    let n2 := t2.normal
    let d2 := (Vector3.dot n2 u0).neg
    let dv0 := snap ((Vector3.dot n2 v0).add d2)
    let dv1 := snap ((Vector3.dot n2 v1).add d2)
    let dv2 := snap ((Vector3.dot n2 v2).add d2)
    let dv0dv1 := dv0.mul dv1
    let dv0dv2 := dv0.mul dv2
    if Q.zero.lt dv0dv1 && Q.zero.lt dv0dv2 then false
    else
      let d := Vector3.cross n1 n2
      let index := d.vabs.max_index
      let vp : Vector3 := ⟨v0.nth index, v1.nth index, v2.nth index⟩
      let up : Vector3 := ⟨u0.nth index, u1.nth index, u2.nth index⟩
      let r1 := compute_interval vp dv0 dv1 dv2 dv0dv1 dv0dv2
      if r1.2 then coplanar_tri_tri n1 v0 v1 v2 u0 u1 u2
      else
        let r2 := compute_interval up du0 du1 du2 du0du1 du0du2
        if r2.2 then coplanar_tri_tri n1 v0 v1 v2 u0 u1 u2
        else
          let interval1 := r1.1
          let interval2 := r2.1
          let xx := interval1.x0.mul interval1.x1
          let yy := interval2.x0.mul interval2.x1
          let xxyy := xx.mul yy
          let tmp1 := interval1.a.mul xxyy
          let j10 := tmp1.add ((interval1.b.mul interval1.x1).mul yy)
          let j11 := tmp1.add ((interval1.c.mul interval1.x0).mul yy)
          let i1p := if j10.lt j11 then (j10, j11) else (j11, j10)
          let tmp2 := interval2.a.mul xxyy
          let j20 := tmp2.add ((interval2.b.mul xx).mul interval2.x1)
          let j21 := tmp2.add ((interval2.c.mul xx).mul interval2.x0)
          let i2p := if j20.lt j21 then (j20, j21) else (j21, j20)
          if i1p.2.lt i2p.1 || i2p.2.lt i1p.1 then false else true

/-- A coordinate literal: an integer-valued `f64`. -/
def qi (i : Int) : Q := ⟨i, 1⟩

/-- Failing input for claim C4, first triangle: the unit right triangle in the
plane `z = 0` with normal `(0,0,1)`. -/
def c4Tri1 : Triangle :=
  ⟨⟨qi 0, qi 0, qi 0⟩, ⟨qi 1, qi 0, qi 0⟩, ⟨qi 0, qi 1, qi 0⟩⟩

/-- Failing input for claim C4, second triangle: the same footprint in the
plane `z = -1` but wound so its normal is `(0,0,-1)`; every vertex of each
triangle is at signed distance `-1` from the other triangle's plane. -/
def c4Tri2 : Triangle :=
  ⟨⟨qi 0, qi 0, qi (-1)⟩, ⟨qi 0, qi 1, qi (-1)⟩, ⟨qi 1, qi 0, qi (-1)⟩⟩

/-! ### Polygon soup (`src/mesh/polygon_soup.rs`)

The source stores faces in a flat `face_vertices`/`face_offsets` layout; we
model a face as the `(vertex-slice, patch)` pair returned by
`PolygonSoup::face(i)`, which is exactly the list passed to `insert_face`. -/

/-- One face of a polygon soup: its vertex indices and optional patch. -/
structure SoupFace where
  vertices : List ℕ
  patch : Option ℕ
deriving DecidableEq, Repr

/-- `PolygonSoup` / `PolygonSoupMesh`: the staging container. -/
structure PolygonSoup where
  vertices : List Vector3
  faces : List SoupFace
  patches : List String
deriving DecidableEq, Repr

/-- `PolygonSoup::new()`. -/
def PolygonSoup.empty : PolygonSoup := ⟨[], [], []⟩

/-! ### OBJ reader (`src/mesh/wavefront.rs`)

File access and gzip decoding are outside the model: the input is the list of
lines of the decoded file, each line a `List Char` (Lean `String.data`).
`char::is_whitespace` is modelled by `Char.isWhitespace`; the inputs in this
file only use ASCII spaces, where the two agree. -/

/-- `ParseObjError`.  `indexPanic` is not a variant of the Rust enum: it
models the `args[1]` index panic `ObjReader::read` hits on a bare `v`/`f`/`g`
line with no argument text.  No theorem below depends on that case. -/
inductive ParseObjError where
  | invalidVertex (raw : List Char)
  | invalidFace (raw : List Char)
  | indexPanic
deriving DecidableEq, Repr

/-- Accumulator loop for `str::split_whitespace` (empty tokens skipped). -/
def splitWsGo : List Char → List Char → List (List Char)
  | [], acc => if acc.isEmpty then [] else [acc.reverse]
  | c :: rest, acc =>
    if c.isWhitespace then
      if acc.isEmpty then splitWsGo rest [] else acc.reverse :: splitWsGo rest []
    else
      splitWsGo rest (c :: acc)

/-- `str::split_whitespace`. -/
def split_whitespace (l : List Char) : List (List Char) := splitWsGo l []

/-- `str::trim`. -/
def trimChars (l : List Char) : List Char :=
  ((l.dropWhile (·.isWhitespace)).reverse.dropWhile (·.isWhitespace)).reverse

/-- Digit-string value (big-endian decimal). -/
def digitsVal (l : List Char) : ℕ :=
  l.foldl (fun a c => 10 * a + (c.toNat - 48)) 0

/-- `str::parse::<usize>()`: an optional `+`, then one or more ASCII digits.
Overflow is not modelled (irrelevant to the inputs considered here). -/
def rust_parse_usize (l : List Char) : Option ℕ :=
  let l' := match l with
    | '+' :: rest => rest
    | _ => l
  if !l'.isEmpty && l'.all (·.isDigit) then some (digitsVal l') else none

/-- Exact value of a parsed decimal float `±(ip.fp)·10^ex`. -/
def qOfDecimal (sgn : Int) (ip fp : List Char) (ex : Int) : Q :=
  let m : Int := (digitsVal ip * 10 ^ fp.length + digitsVal fp : ℕ)
  match ex with
  | Int.ofNat e => ⟨sgn * m * 10 ^ e, (10 : Int) ^ fp.length⟩
  | Int.negSucc e => ⟨sgn * m, (10 : Int) ^ fp.length * 10 ^ (e + 1)⟩

/-- `str::parse::<f64>()` on the finite decimal grammar
`[±] digits ['.' digits] [('e'|'E') [±] digits]` (with at least one mantissa
digit).  The special literals `inf`/`nan` and rounding to the nearest double
are not modelled; the claims below only depend on success/failure and on
exactly representable values. -/
def rust_parse_f64 (l : List Char) : Option Q :=
  let s1 : Int × List Char :=
    match l with
    | '-' :: r => (-1, r)
    | '+' :: r => (1, r)
    | _ => (1, l)
  let ip := s1.2.takeWhile (·.isDigit)
  let r1 := s1.2.dropWhile (·.isDigit)
  let s2 : List Char × List Char :=
    match r1 with
    | '.' :: r => (r.takeWhile (·.isDigit), r.dropWhile (·.isDigit))
    | _ => ([], r1)
  if ip.isEmpty && s2.1.isEmpty then none
  else
    match s2.2 with
    | [] => some (qOfDecimal s1.1 ip s2.1 0)
    | e :: r3 =>
      if e = 'e' ∨ e = 'E' then
        let s3 : Int × List Char :=
          match r3 with
          | '-' :: r => (-1, r)
          | '+' :: r => (1, r)
          | _ => (1, r3)
        if !s3.2.isEmpty && s3.2.all (·.isDigit) then
          some (qOfDecimal s1.1 ip s2.1 (s3.1 * (digitsVal s3.2 : ℕ)))
        else none
      else none

/-- `vertex[i] = value` (`IndexMut`); the guard in `parse_vertex` keeps
`i < 3`, where the source cannot panic. -/
def Vector3.vset (v : Vector3) (i : ℕ) (q : Q) : Vector3 :=
  match i with
  | 0 => { v with x := q }
  | 1 => { v with y := q }
  | 2 => { v with z := q }
  | _ => v

/-- The `for (i, text) in data.split_whitespace().enumerate()` loop of
`ObjReader::parse_vertex`. -/
def parseVertexGo (data : List Char) :
    List (List Char) → ℕ → Vector3 → Except ParseObjError Vector3
  | [], _, v => .ok v
  | t :: rest, i, v =>
    if 3 ≤ i then .error (.invalidVertex data)
    else
      match rust_parse_f64 t with
      | some q => parseVertexGo data rest (i + 1) (v.vset i q)
      | none => .error (.invalidVertex data)

/-- `ObjReader::parse_vertex`. -/
def ObjReader.parse_vertex (m : PolygonSoup) (data : List Char) :
    Except ParseObjError PolygonSoup :=
  match parseVertexGo data (split_whitespace data) 0 Vector3.zeros with
  | .ok v => .ok { m with vertices := m.vertices ++ [v] }
  | .error e => .error e

/-- The token loop of `ObjReader::parse_face`.  A token whose part before the
first `/` fails `parse::<usize>` is silently skipped: the source's
`if let Ok(value) = …` has no else-branch. -/
def parseFaceGo (data : List Char) :
    List (List Char) → List ℕ → Except ParseObjError (List ℕ)
  | [], acc => .ok acc
  | t :: rest, acc =>
    match rust_parse_usize (t.takeWhile (· ≠ '/')) with
    | some v =>
      if v ≤ 0 then .error (.invalidFace data)
      else parseFaceGo data rest (acc ++ [v - 1])
    | none => parseFaceGo data rest acc

/-- `ObjReader::parse_face`.  (`let patch = mesh.n_patches()` is inlined:
the token loop does not touch the patch list.) -/
def ObjReader.parse_face (m : PolygonSoup) (data : List Char) :
    Except ParseObjError PolygonSoup :=
  match parseFaceGo data (split_whitespace data) [] with
  | .error e => .error e
  | .ok vs =>
    if vs.length < 3 then .error (.invalidFace data)
    else if m.patches.length ≠ 0 then
      .ok { m with faces := m.faces ++ [⟨vs, some (m.patches.length - 1)⟩] }
    else
      .ok { m with faces := m.faces ++ [⟨vs, none⟩] }

/-- `ObjReader::parse_group`. -/
def ObjReader.parse_group (m : PolygonSoup) (data : List Char) :
    Except ParseObjError PolygonSoup :=
  .ok { m with patches := m.patches ++ [String.mk (trimChars data)] }

/-- `line.splitn(2, char::is_whitespace)`: the command token and the rest of
the line after the first whitespace character (if any). -/
def splitFirstWs (l : List Char) : List Char × Option (List Char) :=
  let pre := l.takeWhile (fun c => !c.isWhitespace)
  match l.dropWhile (fun c => !c.isWhitespace) with
  | [] => (pre, none)
  | _ :: rest => (pre, some rest)

/-- The body of the line loop in `ObjReader::read`. -/
def processLine (m : PolygonSoup) (line : List Char) :
    Except ParseObjError PolygonSoup :=
  let args := splitFirstWs (trimChars line)
  if args.1 = ['v'] then
    match args.2 with
    | some d => ObjReader.parse_vertex m d
    | none => .error .indexPanic
  else if args.1 = ['f'] then
    match args.2 with
    | some d => ObjReader.parse_face m d
    | none => .error .indexPanic
  else if args.1 = ['g'] then
    match args.2 with
    | some d => ObjReader.parse_group m d
    | none => .error .indexPanic
  else
    .ok m

/-- The line loop of `ObjReader::read` over the decoded file content. -/
def readLines : List (List Char) → PolygonSoup → Except ParseObjError PolygonSoup
  | [], m => .ok m
  | l :: rest, m =>
    match processLine m l with
    | .ok m' => readLines rest m'
    | .error e => .error e

instance {ε α : Type} [DecidableEq ε] [DecidableEq α] : DecidableEq (Except ε α) :=
  fun a b =>
    match a, b with
    | .ok x, .ok y =>
      if h : x = y then .isTrue (by rw [h])
      else .isFalse (fun he => h (by injection he))
    | .error x, .error y =>
      if h : x = y then .isTrue (by rw [h])
      else .isFalse (fun he => h (by injection he))
    | .ok _, .error _ => .isFalse (fun he => Except.noConfusion he)
    | .error _, .ok _ => .isFalse (fun he => Except.noConfusion he)

/-- Soup used to instantiate the C7 witness: two patches already declared. -/
def c7Soup : PolygonSoup := ⟨[], [], ["alpha", "beta"]⟩

/-- Result of parsing `f 1 2 3` against `c7Soup`. -/
def c7Soup' : PolygonSoup := ⟨[], [⟨[0, 1, 2], some 1⟩], ["alpha", "beta"]⟩

/-! ### Octree (`src/spatial/octree.rs`)

The item type `T` and its `Intersects<Aabb>` capability are parameters
(`inter`).  The `HashMap<usize, OctreeNode>` becomes an association list with
`setNode` as overwriting insert; the source never iterates the map, so the
representation order is unobservable. -/

/-- `MAX_DEPTH = (size_of::<usize>() * 8 - 1) / 3` with 64-bit `usize`. -/
def MAX_DEPTH : ℕ := (8 * 8 - 1) / 3

/-- `MAX_ITEMS_PER_NODE`. -/
def MAX_ITEMS_PER_NODE : ℕ := 100

/-- `OctreeNode`. -/
structure OctreeNode where
  code : ℕ
  bounds : Aabb
  is_leaf : Bool
  items : List ℕ
deriving DecidableEq, Repr

instance : Inhabited OctreeNode := ⟨⟨0, default, true, []⟩⟩

/-- `OctreeNode::new`. -/
def OctreeNode.mkNew (code : ℕ) (bounds : Aabb) : OctreeNode :=
  ⟨code, bounds, true, []⟩

/-- The child location codes `(code << 3) | o` for `o ∈ [0, 8)`. -/
def childCodes (c : ℕ) : List ℕ := (List.range 8).map (fun k => c * 8 + k)

/-- `OctreeNode::children`. -/
def OctreeNode.children (n : OctreeNode) : List ℕ := childCodes n.code

/-- `OctreeNode::depth`: the first `d ≤ MAX_DEPTH` with `code >> 3d == 1`.
The source panics (`expect("invalid octree code")`) when no such `d` exists;
the model returns `MAX_DEPTH + 1` there, which makes `can_split` false — the
only consumer of `depth`.  Any octree reachable through the API has valid
codes, so the divergence is confined to states on which the Rust code
aborts. -/
def OctreeNode.depth (n : OctreeNode) : ℕ :=
  (((List.range (MAX_DEPTH + 1)).filter
      (fun d => n.code >>> (3 * d) = 1)).headD (MAX_DEPTH + 1))

/-- `OctreeNode::can_split`. -/
def OctreeNode.can_split (n : OctreeNode) : Bool :=
  n.is_leaf && decide (n.depth < MAX_DEPTH)

/-- `OctreeNode::should_split`. -/
def OctreeNode.should_split (n : OctreeNode) : Bool :=
  decide (MAX_ITEMS_PER_NODE < n.items.length) && n.can_split

/-- `Octree<T>`. -/
structure Octree (T : Type) where
  nodes : List (ℕ × OctreeNode)
  items : List T
deriving Repr

/-- `Octree::new`. -/
def Octree.mkNew (T : Type) (bounds : Aabb) : Octree T :=
  ⟨[(1, OctreeNode.mkNew 1 bounds)], []⟩

/-- `HashMap::get` on the node map. -/
def lookupNode : List (ℕ × OctreeNode) → ℕ → Option OctreeNode
  | [], _ => none
  | p :: rest, c => if p.1 = c then some p.2 else lookupNode rest c

/-- `HashMap::insert` (overwrite) on the node map. -/
def setNode (ns : List (ℕ × OctreeNode)) (c : ℕ) (n : OctreeNode) :
    List (ℕ × OctreeNode) :=
  (c, n) :: ns.filter (fun p => !(p.1 = c))

/-- The BFS placement loop of `Octree::insert`, with the `queue` held in pop
order (the head is the last element of the Rust `Vec`, which `pop`s from the
back and `append`s children at the back).  `fuel` bounds the iteration count;
`insertGoFuel_sufficient` below shows the fuel chosen by `Octree.insert`
never runs out on node maps with positive codes, so the `none` case is
unreachable there. -/
def insertGo {T : Type} (inter : T → Aabb → Bool) (x : T) (idx : ℕ) :
    ℕ → List ℕ → List (ℕ × OctreeNode) → List ℕ →
      Option (List (ℕ × OctreeNode) × List ℕ)
  | 0, _, _, _ => none
  | _ + 1, [], ns, codes => some (ns, codes)
  | fuel + 1, c :: queue, ns, codes =>
    match lookupNode ns c with
    | none => insertGo inter x idx fuel queue ns codes
    | some node =>
      if inter x node.bounds then
        if node.is_leaf then
          insertGo inter x idx fuel queue
            (setNode ns c { node with items := node.items ++ [idx] })
            (codes ++ [c])
        else
          insertGo inter x idx fuel ((childCodes c).reverse ++ queue) ns codes
      else
        insertGo inter x idx fuel queue ns codes

/-- The largest code present in the node map. -/
def maxCode (ns : List (ℕ × OctreeNode)) : ℕ :=
  ns.foldr (fun p a => max p.1 a) 0

/-- Fuel for the placement BFS: strictly more than the measure of any queue
the walk can reach (see `insertGoFuel_sufficient`). -/
def fuelFor (ns : List (ℕ × OctreeNode)) : ℕ := 9 ^ (maxCode ns + 1)

/-- One child created by `Octree::split`: octant `k` of the parent's bounds,
a fresh leaf holding the parent's items that intersect the child bounds.
`self.items[item]` cannot miss in the source (recorded indices are in range);
an out-of-range index is modelled as not intersecting. -/
def splitChild {T : Type} (inter : T → Aabb → Bool) (items : List T)
    (node : OctreeNode) (k : ℕ) : OctreeNode :=
  let cb := node.bounds.octant k
  ⟨node.code * 8 + k, cb, true,
    node.items.filter (fun j =>
      match items.get? j with
      | some it => inter it cb
      | none => false)⟩

/-- `Octree::split`.  The source panics when the node `!can_split()`; every
call site in `insert` is guarded by `should_split`, which implies
`can_split`, so the model makes the panic branch a no-op. -/
def Octree.split {T : Type} (inter : T → Aabb → Bool) (o : Octree T) (code : ℕ) :
    Octree T :=
  match lookupNode o.nodes code with
  | none => o
  | some node =>
    if !node.can_split then o
    else
      let base := setNode o.nodes code { node with is_leaf := false, items := [] }
      let ns2 := (List.range 8).foldl
        (fun ns k => setNode ns (node.code * 8 + k) (splitChild inter o.items node k)) base
      { o with nodes := ns2 }

/-- One step of the post-placement split loop of `Octree::insert`.  The
source indexes `self.nodes[&code]`, which cannot miss because `code` was just
recorded; a missing code is modelled as "do not split". -/
def splitStep {T : Type} (inter : T → Aabb → Bool) (o : Octree T) (c : ℕ) :
    Octree T :=
  match lookupNode o.nodes c with
  | some n => if n.should_split then Octree.split inter o c else o
  | none => o

/-- Outcome of `Octree::insert`: `notInserted` is the
`panic!("item not inserted")` branch carrying the state at the moment of the
panic; `fuelOut` is the (unreachable, see `insertGoFuel_sufficient`) fuel
exhaustion of the model. -/
inductive InsertOutcome (T : Type) where
  | ok (index : ℕ) (o : Octree T)
  | notInserted (o : Octree T)
  | fuelOut

/-- `Octree::insert`.  (`let index = self.items.len()` is written out: the
push happens after the placement BFS and after the emptiness check.) -/
def Octree.insert {T : Type} (inter : T → Aabb → Bool) (o : Octree T) (x : T) :
    InsertOutcome T :=
  match insertGo inter x o.items.length (fuelFor o.nodes) [1] o.nodes [] with
  | none => .fuelOut
  | some (ns1, codes) =>
    if codes.isEmpty then .notInserted { o with nodes := ns1 }
    else
      .ok o.items.length
        (codes.foldl (splitStep inter) { nodes := ns1, items := o.items ++ [x] })

/-- The recorded leaf codes of one `insert` call (the source's `codes`
vector), exposed for the statement of the amended claim C2. -/
def placeCodes {T : Type} (inter : T → Aabb → Bool) (o : Octree T) (x : T) :
    Option (List (ℕ × OctreeNode) × List ℕ) :=
  insertGo inter x o.items.length (fuelFor o.nodes) [1] o.nodes []

/-- `is_leaf` flag of the node stored at a code, if any. -/
def leafFlag (ns : List (ℕ × OctreeNode)) (c : ℕ) : Option Bool :=
  (lookupNode ns c).map (fun n => n.is_leaf)

/-- A queue entry is sound: it is the root, or its parent is an allocated
non-leaf node (the BFS only enqueues children of popped non-leaf nodes). -/
def QSound (ns : List (ℕ × OctreeNode)) (c : ℕ) : Prop :=
  c = 1 ∨ (8 ≤ c ∧ leafFlag ns (c / 8) = some false)

/-- A recorded code is sound: it denotes an allocated leaf and is queue-sound. -/
def CSound (ns : List (ℕ × OctreeNode)) (c : ℕ) : Prop :=
  leafFlag ns c = some true ∧ QSound ns c

/-- `code` field of the node stored at a code, if any. -/
def codeAt (ns : List (ℕ × OctreeNode)) (c : ℕ) : Option ℕ :=
  (lookupNode ns c).map (fun n => n.code)

/-- Every stored node's `code` field equals its map key — true of every
octree built through the API (`new` and `split` both store nodes under their
own codes). -/
def CodesOK (ns : List (ℕ × OctreeNode)) : Prop :=
  ∀ p ∈ ns, p.2.code = p.1

/-- The node at `c` (if allocated) does not satisfy `should_split`: it is not
simultaneously a leaf, over `MAX_ITEMS_PER_NODE`, and above `MAX_DEPTH`. -/
def notOverfull (ns : List (ℕ × OctreeNode)) (c : ℕ) : Prop :=
  ∀ n, lookupNode ns c = some n → n.should_split = false

/-- Weight of a queue entry for the BFS termination measure. -/
def vWeight (M c : ℕ) : ℕ := if M < c then 1 else 9 ^ (M + 1 - c)

/-- Termination measure of a BFS queue. -/
def muQ (M : ℕ) (queue : List ℕ) : ℕ := (queue.map (vWeight M)).sum

/-- The always-intersecting trivial item used for the C2 counterexample: a
unit-like type whose `Intersects<Aabb>` returns `true` (e.g. an item larger
than the whole root box). -/
def unitInter : Unit → Aabb → Bool := fun _ _ => true

/-- One insert of the trivial item, keeping the resulting state. -/
def c2Step (o : Octree Unit) (_i : ℕ) : Octree Unit :=
  match Octree.insert unitInter o () with
  | .ok _ o' => o'
  | .notInserted o' => o'
  | .fuelOut => o

/-- The octree after 100 inserts of always-intersecting items into a fresh
unit-cube octree: the root is a leaf holding items `0..100`. -/
def c2Pre : Octree Unit := (List.range 100).foldl c2Step (Octree.mkNew Unit Aabb.unit)

/-- `true` iff some allocated leaf is over-full yet splittable: the situation
claim C2 asserts can never be observed after an insert. -/
def overFullSplittableLeaf (ns : List (ℕ × OctreeNode)) : Bool :=
  ns.any (fun p =>
    p.2.is_leaf && decide (MAX_ITEMS_PER_NODE < p.2.items.length) &&
      decide (p.2.depth < MAX_DEPTH))

/-- Checks the 101st insert of the C2 scenario: it must return `ok` and its
resulting octree is scanned for an over-full splittable leaf. -/
def c2AfterHasOverFullLeaf : Bool :=
  match Octree.insert unitInter c2Pre () with
  | .ok _ o => overFullSplittableLeaf o.nodes
  | _ => false

/-- Point/AABB intersection packaged for `Octree<Vector3>` (C9 witness). -/
def pointInter : Vector3 → Aabb → Bool := fun v a => intersects_aabb_vector3 a v

/-- Fresh unit octree over points for the C9 witness (spec scenario S5). -/
def c9WTree : Octree Vector3 := Octree.mkNew Vector3 Aabb.unit

/-- The point `(1,1,1)`, outside the unit root box. -/
def c9WPoint : Vector3 := ⟨qi 1, qi 1, qi 1⟩

/-- Fresh unit octree for the C2 witness. -/
def c2WTree : Octree Unit := Octree.mkNew Unit Aabb.unit

/-- Result tree of the single witness insert. -/
def c2WOut : Octree Unit :=
  match Octree.insert unitInter c2WTree () with
  | .ok _ o => o
  | .notInserted o => o
  | .fuelOut => c2WTree

/-- Placement state of the single witness insert. -/
def c2WPlace : List (ℕ × OctreeNode) × List ℕ :=
  (placeCodes unitInter c2WTree ()).getD (c2WTree.nodes, [])

/-! ### Half-edge mesh (`src/mesh/half_edge.rs`) -/

/-- `HeVertex`. -/
structure HeVertex where
  origin : Vector3
  half_edge : ℕ
deriving DecidableEq, Repr

instance : Inhabited HeVertex := ⟨⟨default, 0⟩⟩

/-- `HeFace`. -/
structure HeFace where
  half_edge : ℕ
  patch : Option ℕ
deriving DecidableEq, Repr

instance : Inhabited HeFace := ⟨⟨0, none⟩⟩

/-- `HeHalfEdge`. -/
structure HeHalfEdge where
  origin : ℕ
  face : ℕ
  prev : ℕ
  next : ℕ
  twin : Option ℕ
deriving DecidableEq, Repr

instance : Inhabited HeHalfEdge := ⟨⟨0, 0, 0, 0, none⟩⟩

/-- `HePatch`. -/
structure HePatch where
  name : String
deriving DecidableEq, Repr

instance : Inhabited HePatch := ⟨⟨""⟩⟩

/-- `HeMesh`: four parallel arrays indexed by 0-based handles. -/
structure HeMesh where
  vertices : List HeVertex
  faces : List HeFace
  half_edges : List HeHalfEdge
  patches : List HePatch
deriving DecidableEq, Repr

/-- `HeMesh::default()`. -/
def HeMesh.empty : HeMesh := ⟨[], [], [], []⟩

instance : Inhabited HeMesh := ⟨HeMesh.empty⟩

/-- `HeMeshError`. -/
inductive HeMeshError where
  | nonManifold
deriving DecidableEq, Repr

/-- `HeMesh::insert_vertex`. -/
def HeMesh.insert_vertex (m : HeMesh) (origin : Vector3) : HeMesh :=
  { m with vertices := m.vertices ++ [⟨origin, 0⟩] }

/-- `HeMesh::insert_face`: appends the face record and one block of `k`
half-edges whose `prev`/`next` wrap modulo `k` inside the block. -/
def HeMesh.insert_face (m : HeMesh) (vs : List ℕ) (patch : Option ℕ) : HeMesh :=
  let nh := m.half_edges.length
  let nv := vs.length
  let fid := m.faces.length
  { m with
    faces := m.faces ++ [⟨nh, patch⟩],
    half_edges := m.half_edges ++
      vs.enum.map (fun p =>
        ⟨p.2, fid, nh + (p.1 + nv - 1) % nv, nh + (p.1 + nv + 1) % nv, none⟩) }

/-- `HeMesh::insert_patch`. -/
def HeMesh.insert_patch (m : HeMesh) (name : String) : HeMesh :=
  { m with patches := m.patches ++ [⟨name⟩] }

/-- The three insertion loops of `HeMesh::new`, before `build_links`. -/
def preMesh (soup : PolygonSoup) : HeMesh :=
  let m1 := soup.patches.foldl (fun m p => m.insert_patch p) HeMesh.empty
  let m2 := soup.vertices.foldl (fun m v => m.insert_vertex v) m1
  soup.faces.foldl (fun m f => m.insert_face f.vertices f.patch) m2

/-- The unordered vertex pair of half-edge `i`: `(min, max)` of its origin and
its `next`'s origin, exactly the side-table key of `build_links`. -/
def edgeKey (hes : List HeHalfEdge) (i : ℕ) : ℕ × ℕ :=
  let hi := hes.getD i default
  let hj := hes.getD hi.next default
  (min hi.origin hj.origin, max hi.origin hj.origin)

/-- Lookup in the side table (`HashMap<(usize,usize), Vec<usize>>`). -/
def idxLookup : List ((ℕ × ℕ) × List ℕ) → (ℕ × ℕ) → Option (List ℕ)
  | [], _ => none
  | e :: rest, k => if e.1 = k then some e.2 else idxLookup rest k

/-- Replace the (first) entry for a key in the side table. -/
def idxUpdate : List ((ℕ × ℕ) × List ℕ) → (ℕ × ℕ) → List ℕ →
    List ((ℕ × ℕ) × List ℕ)
  | [], k, l => [(k, l)]
  | e :: rest, k, l => if e.1 = k then (k, l) :: rest else e :: idxUpdate rest k l

/-- One side-table insertion of `build_links`: a third handle on the same
unordered pair is the `NonManifold` error. -/
def idxAdd (idx : List ((ℕ × ℕ) × List ℕ)) (k : ℕ × ℕ) (i : ℕ) :
    Option (List ((ℕ × ℕ) × List ℕ)) :=
  match idxLookup idx k with
  | some l => if l.length = 2 then none else some (idxUpdate idx k (l ++ [i]))
  | none => some (idx ++ [(k, [i])])

/-- The first loop of `build_links` over all half-edge handles: records each
handle under its unordered edge key and rewrites `vertices[origin].half_edge`
(last writer wins). -/
def buildLinksGo (hes : List HeHalfEdge) :
    List ℕ → List HeVertex → List ((ℕ × ℕ) × List ℕ) →
      Option (List HeVertex × List ((ℕ × ℕ) × List ℕ))
  | [], verts, idx => some (verts, idx)
  | i :: rest, verts, idx =>
    let hi := hes.getD i default
    let verts' := verts.set hi.origin
      { verts.getD hi.origin default with half_edge := i }
    match idxAdd idx (edgeKey hes i) i with
    | none => none
    | some idx' => buildLinksGo hes rest verts' idx'

/-- `half_edges[a].twin = Some(b); half_edges[b].twin = Some(a)`. -/
def setTwins (hes : List HeHalfEdge) (a b : ℕ) : List HeHalfEdge :=
  let hes1 := hes.set a { hes.getD a default with twin := some b }
  hes1.set b { hes1.getD b default with twin := some a }

/-- The second loop of `build_links`: pair up the keys holding exactly two
handles.  The source iterates a `HashMap` in arbitrary order; the entries
touch pairwise disjoint handles (each handle lies under exactly one key), so
any order — here, insertion order — produces the same array. -/
def buildTwins : List ((ℕ × ℕ) × List ℕ) → List HeHalfEdge → List HeHalfEdge
  | [], hes => hes
  | e :: rest, hes =>
    buildTwins rest
      (match e.2 with
       | [a, b] => setTwins hes a b
       | _ => hes)

/-- `HeMesh::build_links`. -/
def HeMesh.build_links (m : HeMesh) : Except HeMeshError HeMesh :=
  match buildLinksGo m.half_edges (List.range m.half_edges.length) m.vertices [] with
  | none => .error .nonManifold
  | some (verts, idx) =>
    .ok { m with vertices := verts, half_edges := buildTwins idx m.half_edges }

/-- `HeMesh::new`. -/
def HeMesh.new (soup : PolygonSoup) : Except HeMeshError HeMesh :=
  (preMesh soup).build_links

/-- `HeHalfEdge::is_boundary`. -/
def HeHalfEdge.is_boundary (h : HeHalfEdge) : Bool := h.twin.isNone

/-- `HeMesh::is_closed`. -/
def HeMesh.is_closed (m : HeMesh) : Bool :=
  m.half_edges.all (fun h => !h.is_boundary)

/-- `HeMesh::is_consistent`. -/
def HeMesh.is_consistent (m : HeMesh) : Bool :=
  m.half_edges.all (fun h =>
    match h.twin with
    | none => true
    | some t => decide ((m.half_edges.getD t default).origin ≠ h.origin))

/-- `HeFaceHalfEdgeIter`: yield the current handle and follow `next` until
the start handle reappears.  On a well-formed mesh the cycle closes within
`n_half_edges` steps; on a mesh where it does not, the Rust iterator never
terminates, which the fuel bound truncates (no theorem below relies on that
case). -/
def faceHalfEdgesGo (hes : List HeHalfEdge) (init : ℕ) : ℕ → ℕ → List ℕ
  | 0, _ => []
  | fuel + 1, curr =>
    let nxt := (hes.getD curr default).next
    if nxt = init then [curr] else curr :: faceHalfEdgesGo hes init fuel nxt

/-- `HeMesh::face_half_edges`. -/
def HeMesh.face_half_edges (m : HeMesh) (f : ℕ) : List ℕ :=
  let start := (m.faces.getD f default).half_edge
  faceHalfEdgesGo m.half_edges start (m.half_edges.length + 1) start

/-- `HeMesh::face_vertices`. -/
def HeMesh.face_vertices (m : HeMesh) (f : ℕ) : List ℕ :=
  (m.face_half_edges f).map (fun i => (m.half_edges.getD i default).origin)

/-- `HeMesh::face_neighbors` (`HeFaceFaceIter` skips boundary half-edges). -/
def HeMesh.face_neighbors (m : HeMesh) (f : ℕ) : List ℕ :=
  (m.face_half_edges f).filterMap
    (fun i =>
      match (m.half_edges.getD i default).twin with
      | some t => some (m.half_edges.getD t default).face
      | none => none)

/-- `HeMesh::is_face_consistent`: scan face `j`'s half-edges for the first
one whose twin lies on face `i`; the faces are consistent iff that twin pair
has different origins. -/
def HeMesh.is_face_consistent (m : HeMesh) (i j : ℕ) : Bool :=
  let index := m.face_half_edges i
  match (m.face_half_edges j).find?
      (fun k =>
        match (m.half_edges.getD k default).twin with
        | some t => index.contains t
        | none => false) with
  | some k =>
    match (m.half_edges.getD k default).twin with
    | some t =>
      decide ((m.half_edges.getD t default).origin ≠
        (m.half_edges.getD k default).origin)
    | none => false
  | none => false

/-- `HeMesh::flip_face`: rebuild each half-edge of the face cycle from the
old array (swap `prev`/`next`, take the old `next`'s origin, keep `twin`),
then write them back. -/
def HeMesh.flip_face (m : HeMesh) (f : ℕ) : HeMesh :=
  let ids := m.face_half_edges f
  let upd := ids.map
    (fun j =>
      let he := m.half_edges.getD j default
      HeHalfEdge.mk (m.half_edges.getD he.next default).origin he.face
        he.next he.prev he.twin)
  { m with half_edges := (ids.zip upd).foldl (fun hes p => hes.set p.1 p.2) m.half_edges }

/-- Fuel for the face-BFS loops: a strict bound on the number of pops any
component BFS over `n_faces` faces with at most `n_half_edges` neighbor
yields per face can perform. -/
def bfsFuel (m : HeMesh) : ℕ :=
  (m.faces.length + 1) * (m.half_edges.length + 2) + 1

/-- The inner BFS of `HeMesh::components` (FIFO queue at the list head). -/
def componentsBfsGo (m : HeMesh) :
    ℕ → List ℕ → List Bool → List ℕ → List Bool × List ℕ
  | 0, _, visited, comp => (visited, comp)
  | _ + 1, [], visited, comp => (visited, comp)
  | fuel + 1, current :: queue, visited, comp =>
    if visited.getD current false then
      componentsBfsGo m fuel queue visited comp
    else
      let visited' := visited.set current true
      let queue' := queue ++
        (m.face_neighbors current).filter (fun nb => !visited'.getD nb false)
      componentsBfsGo m fuel queue' visited' (comp ++ [current])

/-- `HeMesh::components`. -/
def HeMesh.components (m : HeMesh) : List (List ℕ) :=
  ((List.range m.faces.length).foldl
    (fun (st : List Bool × List (List ℕ)) next =>
      if st.1.getD next false then st
      else
        let r := componentsBfsGo m (bfsFuel m) [next] st.1 []
        (r.1, st.2 ++ [r.2]))
    (List.replicate m.faces.length false, [])).2

/-- The BFS of `HeMesh::orient` over one component, with the source's inner
guard translated verbatim: after `oriented[current]` is set, the loop over
the neighbors re-tests `oriented[current]` (not the neighbor), so its body —
enqueueing and flipping — is dead code whenever `current` is in range. -/
def orientBfsGo : ℕ → List ℕ → HeMesh → List Bool → HeMesh × List Bool
  | 0, _, mesh, oriented => (mesh, oriented)
  | _ + 1, [], mesh, oriented => (mesh, oriented)
  | fuel + 1, current :: queue, mesh, oriented =>
    if oriented.getD current false then
      orientBfsGo fuel queue mesh oriented
    else
      let oriented' := oriented.set current true
      let st := (mesh.face_neighbors current).foldl
        (fun (st : HeMesh × List ℕ) neighbor =>
          if oriented'.getD current false then st
          else
            let st1 := (st.1, st.2 ++ [neighbor])
            if !st1.1.is_face_consistent current neighbor then
              (st1.1.flip_face neighbor, st1.2)
            else st1)
        (mesh, queue)
      orientBfsGo fuel st.2 st.1 oriented'

/-- `HeMesh::orient`. -/
def HeMesh.orient (m : HeMesh) : HeMesh :=
  ((m.components).foldl
    (fun (st : HeMesh × List Bool) component =>
      orientBfsGo (bfsFuel m) [component.headD 0] st.1 st.2)
    (m, List.replicate m.faces.length false)).1

/-- The handles whose unordered edge key is `k` (scanning all half-edges in
order): the side table's entry for `k` after `build_links`' first loop. -/
def edgeHandles (hes : List HeHalfEdge) (k : ℕ × ℕ) : List ℕ :=
  (List.range hes.length).filter (fun i => edgeKey hes i = k)

/-- The handles among a handle list `P` whose unordered edge key is `k`
(the side table's entry for `k` after processing `P`). -/
def keyGrp (hes : List HeHalfEdge) (P : List ℕ) (k : ℕ × ℕ) : List ℕ :=
  P.filter (fun i => edgeKey hes i = k)

/-- A soup whose face vertex indices are all in range (face lists the Rust
construction can process without panicking). -/
def ValidSoup (soup : PolygonSoup) : Prop :=
  ∀ f ∈ soup.faces, ∀ v ∈ f.vertices, v < soup.vertices.length

/-! ### `HeMesh::bounds` over IEEE specials (claim C8)

`bounds` seeds its running min/max with `±∞`, so its arithmetic leaves the
exact-rational fragment: `F` adjoins `±∞` and `NaN` to `Q` with IEEE
semantics on the operations `bounds`/`from_bounds` perform. -/

/-- An `f64` value: `NaN`, `-∞`, a finite value, or `+∞`. -/
inductive F where
  | nan
  | ninf
  | fin (q : Q)
  | inf
deriving DecidableEq, Repr

/-- IEEE `<` (false on any `NaN`). -/
def F.lt : F → F → Bool
  | .fin a, .fin b => a.lt b
  | .ninf, .fin _ => true
  | .ninf, .inf => true
  | .fin _, .inf => true
  | _, _ => false

/-- IEEE addition (`∞ + (-∞) = NaN`). -/
def F.add : F → F → F
  | .nan, _ => .nan
  | _, .nan => .nan
  | .inf, .ninf => .nan
  | .ninf, .inf => .nan
  | .inf, _ => .inf
  | _, .inf => .inf
  | .ninf, _ => .ninf
  | _, .ninf => .ninf
  | .fin a, .fin b => .fin (a.add b)

/-- IEEE negation. -/
def F.neg : F → F
  | .nan => .nan
  | .ninf => .inf
  | .inf => .ninf
  | .fin a => .fin a.neg

/-- IEEE subtraction (the sign of zero is not observed by any comparison
`bounds` performs, so `a - b = a + (-b)` is exact here). -/
def F.sub (a b : F) : F := F.add a (F.neg b)

/-- IEEE multiplication (`0 · ∞ = NaN`). -/
def F.mul : F → F → F
  | .nan, _ => .nan
  | _, .nan => .nan
  | .fin a, .fin b => .fin (a.mul b)
  | .inf, .inf => .inf
  | .inf, .ninf => .ninf
  | .ninf, .inf => .ninf
  | .ninf, .ninf => .inf
  | .inf, .fin b => if Q.zero.lt b then .inf else if b.lt Q.zero then .ninf else .nan
  | .fin a, .inf => if Q.zero.lt a then .inf else if a.lt Q.zero then .ninf else .nan
  | .ninf, .fin b => if Q.zero.lt b then .ninf else if b.lt Q.zero then .inf else .nan
  | .fin a, .ninf => if Q.zero.lt a then .ninf else if a.lt Q.zero then .inf else .nan

/-- A `Vector3` of `f64` specials. -/
structure VecF where
  x : F
  y : F
  z : F
deriving DecidableEq, Repr

def VecF.add (u v : VecF) : VecF := ⟨u.x.add v.x, u.y.add v.y, u.z.add v.z⟩

def VecF.sub (u v : VecF) : VecF := ⟨u.x.sub v.x, u.y.sub v.y, u.z.sub v.z⟩

def VecF.smul (u : VecF) (s : F) : VecF := ⟨u.x.mul s, u.y.mul s, u.z.mul s⟩

/-- `Aabb` built by `bounds` (center/halfsize may be non-finite). -/
structure AabbF where
  center : VecF
  halfsize : VecF
deriving DecidableEq, Repr

/-- `Aabb::from_bounds`: `center = (min+max)*0.5`, `halfsize = (max-min)*0.5`. -/
def AabbF.from_bounds (mn mx : VecF) : AabbF :=
  ⟨(mn.add mx).smul (.fin ⟨1, 2⟩), (mx.sub mn).smul (.fin ⟨1, 2⟩)⟩

/-- `Aabb::max` of the box `bounds` returns. -/
def AabbF.hi (a : AabbF) : VecF := a.center.add a.halfsize

/-- One component of the loop body of `HeMesh::bounds`:
`if o < min { min = o } else if o > max { max = o }` — note the `else`. -/
def boundsStep1 (q : Q) (mn mx : F) : F × F :=
  if F.lt (.fin q) mn then (.fin q, mx)
  else if F.lt mx (.fin q) then (mn, .fin q)
  else (mn, mx)

/-- `HeMesh::bounds`. -/
def HeMesh.bounds (m : HeMesh) : AabbF :=
  let st := m.vertices.foldl
    (fun (st : VecF × VecF) v =>
      let px := boundsStep1 v.origin.x st.1.x st.2.x
      let py := boundsStep1 v.origin.y st.1.y st.2.y
      let pz := boundsStep1 v.origin.z st.1.z st.2.z
      (⟨px.1, py.1, pz.1⟩, ⟨px.2, py.2, pz.2⟩))
    (⟨.inf, .inf, .inf⟩, ⟨.ninf, .ninf, .ninf⟩)
  AabbF.from_bounds st.1 st.2

/-! ### `HeMesh::merge` (claim C10) -/

/-- Lookup in the name→index patch map.  `HashMap::insert` overwrites, and
the map is only extended at fresh names afterwards, so "last entry wins"
reproduces the source's map exactly. -/
def lookupPatchIdx : List (String × ℕ) → String → Option ℕ
  | [], _ => none
  | e :: rest, s =>
    match lookupPatchIdx rest s with
    | some v => some v
    | none => if e.1 = s then some e.2 else none

/-- `HashMap::contains_key` on the patch map. -/
def containsPatch (l : List (String × ℕ)) (s : String) : Bool :=
  l.any (fun e => e.1 = s)

/-- One step of `merge`'s patch loop: a patch whose name is already mapped
is dropped, a fresh name is appended to the map and the patch list. -/
def mergePatchStep (pr : List (String × ℕ) × List HePatch) (patch : HePatch) :
    List (String × ℕ) × List HePatch :=
  if containsPatch pr.1 patch.name then pr
  else (pr.1 ++ [(patch.name, pr.2.length)], pr.2 ++ [patch])

/-- The patch loop of `merge`: seed the name→index map with the receiver's
patches, then fold `other`'s patches through `mergePatchStep`. -/
def mergePatches (m other : HeMesh) : List (String × ℕ) × List HePatch :=
  other.patches.foldl mergePatchStep
    (m.patches.enum.map (fun p => (p.2.name, p.1)), m.patches)

/-- `HeMesh::merge`: append `other`'s records with uniformly offset handles;
patches are merged by name.  (`index_patches[name]` cannot miss in the
source — every patch of `other` is in the map after the first loop — so the
`.getD 0` default is unreachable; see `mergePatches_spec`.) -/
def HeMesh.merge (m other : HeMesh) : HeMesh :=
  let pr := mergePatches m other
  let offV := m.vertices.length
  let offF := m.faces.length
  let offH := m.half_edges.length
  { vertices := m.vertices ++
      other.vertices.map (fun v => { v with half_edge := v.half_edge + offH }),
    faces := m.faces ++
      other.faces.map (fun f =>
        ⟨f.half_edge + offH,
         f.patch.map (fun p =>
           (lookupPatchIdx pr.1 (other.patches.getD p default).name).getD 0)⟩),
    half_edges := m.half_edges ++
      other.half_edges.map (fun h =>
        ⟨h.origin + offV, h.face + offF, h.prev + offH, h.next + offH,
         h.twin.map (fun t => t + offH)⟩),
    patches := pr.2 }

/-- The structural half-edge invariants of claim C10, for the mesh `m`:
all handles valid (into the four arrays); `prev`/`next` mutually inverse;
the `face` handle constant along `next` and anchored at the face's starting
half-edge; each vertex's stored half-edge originating at it; twins mutual
and running in opposite directions (`origin (twin h) = origin (next h)`,
spec invariant 5). -/
def HeInv (m : HeMesh) : Prop :=
  (∀ i ∈ List.range m.vertices.length,
    (m.vertices.getD i default).half_edge < m.half_edges.length ∧
    (m.half_edges.getD (m.vertices.getD i default).half_edge default).origin = i) ∧
  (∀ i ∈ List.range m.faces.length,
    (m.faces.getD i default).half_edge < m.half_edges.length ∧
    (m.half_edges.getD (m.faces.getD i default).half_edge default).face = i ∧
    (∀ p ∈ (m.faces.getD i default).patch.toList, p < m.patches.length)) ∧
  (∀ h ∈ List.range m.half_edges.length,
    (m.half_edges.getD h default).origin < m.vertices.length ∧
    (m.half_edges.getD h default).face < m.faces.length ∧
    (m.half_edges.getD h default).prev < m.half_edges.length ∧
    (m.half_edges.getD h default).next < m.half_edges.length ∧
    (m.half_edges.getD (m.half_edges.getD h default).next default).prev = h ∧
    (m.half_edges.getD (m.half_edges.getD h default).prev default).next = h ∧
    (m.half_edges.getD (m.half_edges.getD h default).next default).face =
      (m.half_edges.getD h default).face ∧
    (∀ t ∈ (m.half_edges.getD h default).twin.toList,
      t < m.half_edges.length ∧
      (m.half_edges.getD t default).twin = some h ∧
      (m.half_edges.getD t default).origin =
        (m.half_edges.getD (m.half_edges.getD h default).next default).origin))

/-- Concrete tetrahedron soup with face 3 wound backwards: manifold and
closed but not consistently oriented (claim C1's failing input). -/
def tetSoup : PolygonSoup :=
  ⟨[⟨qi 0, qi 0, qi 0⟩, ⟨qi 1, qi 0, qi 0⟩, ⟨qi 0, qi 1, qi 0⟩, ⟨qi 0, qi 0, qi 1⟩],
   [⟨[0, 2, 1], none⟩, ⟨[0, 1, 3], none⟩, ⟨[1, 2, 3], none⟩, ⟨[0, 2, 3], none⟩],
   []⟩

/-- The half-edge mesh built from `tetSoup`. -/
def tetMesh : HeMesh := (HeMesh.new tetSoup).toOption.getD HeMesh.empty

/-- Two-vertex soup whose later vertex is componentwise smaller — the input
on which `bounds` loses the maximum (claim C8's failing input). -/
def c8Soup : PolygonSoup :=
  ⟨[⟨qi 1, qi 1, qi 1⟩, ⟨qi 0, qi 0, qi 0⟩], [], []⟩

/-- The (trivially manifold) mesh built from `c8Soup`. -/
def c8Mesh : HeMesh := (HeMesh.new c8Soup).toOption.getD HeMesh.empty

/-- A consistently oriented closed tetrahedron with one patch: a concrete
mesh satisfying every structural half-edge invariant (claim C10's witness). -/
def goodTetSoup : PolygonSoup :=
  ⟨[⟨qi 0, qi 0, qi 0⟩, ⟨qi 1, qi 0, qi 0⟩, ⟨qi 0, qi 1, qi 0⟩, ⟨qi 0, qi 0, qi 1⟩],
   [⟨[0, 2, 1], some 0⟩, ⟨[0, 1, 3], some 0⟩, ⟨[0, 3, 2], some 0⟩,
    ⟨[1, 2, 3], some 0⟩],
   ["solid"]⟩

/-- The half-edge mesh built from `goodTetSoup`. -/
def goodTetMesh : HeMesh := (HeMesh.new goodTetSoup).toOption.getD HeMesh.empty

/-- A single triangle with its own patch: all twins `None`, so the twin
invariant holds vacuously (claim C10's witness, second operand). -/
def triSoup : PolygonSoup :=
  ⟨[⟨qi 0, qi 0, qi 0⟩, ⟨qi 1, qi 0, qi 0⟩, ⟨qi 0, qi 1, qi 0⟩],
   [⟨[0, 1, 2], some 0⟩], ["tri"]⟩

/-- The half-edge mesh built from `triSoup`. -/
def triMesh : HeMesh := (HeMesh.new triSoup).toOption.getD HeMesh.empty

/-! ### Theorems -/

/-- C4.  The claim is false on the code: the snapping step clamps every signed
distance `d < ε` — not only `|d| < ε` — to zero.  For `c4Tri1`/`c4Tri2` all
three signed distances of each triangle's vertices against the other
triangle's plane are exactly `-1` (strictly negative, far beyond `ε`), so the
claim requires the function to reject; instead the clamp zeroes all six
distances, both early plane tests pass, `compute_interval` reports
"coplanar", and the 2D coplanar routine sees two identical xy-footprints and
returns `true`.  The two disjoint triangles are reported as intersecting. -/
theorem c4_snap_clamps_negative_distances :
    (snap (qi (-1))).beq Q.zero = true ∧
    ((Vector3.dot c4Tri1.normal c4Tri2.p).add
      (Vector3.dot c4Tri1.normal c4Tri1.p).neg).beq (qi (-1)) = true ∧
    ((Vector3.dot c4Tri1.normal c4Tri2.q).add
      (Vector3.dot c4Tri1.normal c4Tri1.p).neg).beq (qi (-1)) = true ∧
    ((Vector3.dot c4Tri1.normal c4Tri2.r).add
      (Vector3.dot c4Tri1.normal c4Tri1.p).neg).beq (qi (-1)) = true ∧
    ((Vector3.dot c4Tri2.normal c4Tri1.p).add
      (Vector3.dot c4Tri2.normal c4Tri2.p).neg).beq (qi (-1)) = true ∧
    intersects_triangle_triangle c4Tri1 c4Tri2 = true := by
  decide

/-- Helper: a successful `parse_vertex` only appends one vertex. -/
theorem parse_vertex_ok_shape (m : PolygonSoup) (data : List Char) (m' : PolygonSoup)
    (h : ObjReader.parse_vertex m data = .ok m') :
    m'.faces = m.faces ∧ m'.patches = m.patches ∧
      ∃ v, m'.vertices = m.vertices ++ [v] := by
  unfold ObjReader.parse_vertex at h
  cases hgo : parseVertexGo data (split_whitespace data) 0 Vector3.zeros with
  | ok v => rw [hgo] at h; injection h with h; subst h; exact ⟨rfl, rfl, v, rfl⟩
  | error e => rw [hgo] at h; cases h

/-- Helper: the vertex-token loop succeeds iff no token has index `≥ 3` and
every token parses as a float. -/
theorem parseVertexGo_isOk (data : List Char) :
    ∀ (toks : List (List Char)) (i : ℕ) (v : Vector3),
      (parseVertexGo data toks i v).isOk = true ↔
        (toks = [] ∨ (i + toks.length ≤ 3 ∧
          ∀ t ∈ toks, (rust_parse_f64 t).isSome = true)) := by
  intro toks
  induction toks with
  | nil => intro i v; simp [parseVertexGo, Except.isOk, Except.toBool]
  | cons t rest ih =>
    intro i v
    by_cases hi : 3 ≤ i
    · simp only [parseVertexGo, if_pos hi]
      constructor
      · intro h; cases h
      · rintro (h | ⟨hlen, _⟩)
        · cases h
        · exfalso; simp at hlen; omega
    · simp only [parseVertexGo, if_neg hi]
      cases hp : rust_parse_f64 t with
      | none =>
        constructor
        · intro h; cases h
        · rintro (h | ⟨_, hall⟩)
          · cases h
          · have := hall t (by simp)
            rw [hp] at this; cases this
      | some q =>
        rw [ih (i + 1) (v.vset i q)]
        constructor
        · rintro (h | ⟨hlen, hall⟩)
          · subst h
            refine Or.inr ⟨by simp; omega, ?_⟩
            intro u hu
            rcases List.mem_singleton.mp hu with rfl
            rw [hp]; rfl
          · refine Or.inr ⟨by simp at hlen ⊢; omega, ?_⟩
            intro u hu
            rcases List.mem_cons.mp hu with rfl | hu
            · rw [hp]; rfl
            · exact hall u hu
        · rintro (h | ⟨hlen, hall⟩)
          · cases h
          · cases rest with
            | nil => exact Or.inl rfl
            | cons r rs =>
              refine Or.inr ⟨by simp at hlen ⊢; omega, ?_⟩
              intro u hu
              exact hall u (List.mem_cons_of_mem t hu)

/-- C6 (amended).  `parse_vertex` succeeds iff the line carries **at most**
three float tokens (missing components are left at `0`); more than three
tokens or a non-float token fails with `InvalidVertex`.  On success exactly
one vertex is appended and nothing else changes. -/
theorem c6_vertex_line_amended (m : PolygonSoup) (data : List Char) :
    ((ObjReader.parse_vertex m data).isOk = true ↔
      ((split_whitespace data).length ≤ 3 ∧
        ∀ t ∈ split_whitespace data, (rust_parse_f64 t).isSome = true)) ∧
    (∀ m', ObjReader.parse_vertex m data = .ok m' →
      m'.faces = m.faces ∧ m'.patches = m.patches ∧
        ∃ v, m'.vertices = m.vertices ++ [v]) := by
  constructor
  · have hgo := parseVertexGo_isOk data (split_whitespace data) 0 Vector3.zeros
    have hiff : (ObjReader.parse_vertex m data).isOk =
        (parseVertexGo data (split_whitespace data) 0 Vector3.zeros).isOk := by
      unfold ObjReader.parse_vertex
      cases parseVertexGo data (split_whitespace data) 0 Vector3.zeros <;> rfl
    rw [hiff, hgo]
    constructor
    · rintro (h | ⟨hlen, hall⟩)
      · rw [h]; exact ⟨by simp, by simp⟩
      · exact ⟨by omega, hall⟩
    · rintro ⟨hlen, hall⟩
      exact Or.inr ⟨by omega, hall⟩
  · exact parse_vertex_ok_shape m data

/-- C6 (counterexample).  The claim says a `v` line with fewer than three
values fails with `InvalidVertex`; instead `v 1 2` succeeds and emits the
vertex `(1, 2, 0)` — the missing `z` stays at the `Vector3::zeros()`
initialiser. -/
theorem c6_two_floats_accepted :
    ObjReader.parse_vertex PolygonSoup.empty (String.data "1 2") =
      .ok ⟨[⟨qi 1, qi 2, Q.zero⟩], [], []⟩ := by
  decide

/-- C6 witness: `v 1 2 3` parses and appends one vertex, via the amended
theorem at a concrete input. -/
theorem c6_amended_witness :
    ((ObjReader.parse_vertex PolygonSoup.empty (String.data "1 2 3")).isOk = true) ∧
    (PolygonSoup.mk [⟨qi 1, qi 2, qi 3⟩] [] []).faces = PolygonSoup.empty.faces := by
  constructor
  · exact ((c6_vertex_line_amended PolygonSoup.empty (String.data "1 2 3")).1).mpr (by decide)
  · exact ((c6_vertex_line_amended PolygonSoup.empty
      (String.data "1 2 3")).2 _ (by decide)).1

/-- C5.  The claim is false on the code for negative tokens: `-1` fails
`parse::<usize>` and the `if let Ok` pattern silently drops it, so
`f 1 2 3 -1` emits the face `[0,1,2]` instead of failing with `InvalidFace`.
The `value <= 0` guard (vacuous for the unsigned type except at literal `0`)
only catches `0`, as the second conjunct shows. -/
theorem c5_negative_index_token_ignored :
    (ObjReader.parse_face PolygonSoup.empty (String.data "1 2 3 -1") =
      .ok ⟨[], [⟨[0, 1, 2], none⟩], []⟩) ∧
    rust_parse_usize (String.data "-1") = none ∧
    (ObjReader.parse_face PolygonSoup.empty (String.data "1 2 3 0") =
      .error (.invalidFace (String.data "1 2 3 0"))) := by
  refine ⟨by decide, by decide, by decide⟩

/-- Helper: a successful `parse_face` appends one face tagged with the current
patch count, and a successful `parse_group` appends one patch. -/
theorem parse_face_ok_shape (m : PolygonSoup) (data : List Char) (m' : PolygonSoup)
    (h : ObjReader.parse_face m data = .ok m') :
    m'.patches = m.patches ∧
      ∃ vs, m'.faces = m.faces ++
        [⟨vs, if m.patches.length = 0 then none else some (m.patches.length - 1)⟩] := by
  unfold ObjReader.parse_face at h
  split at h
  next e _ => cases h
  next vs _ =>
    split at h
    next => cases h
    next =>
      split at h
      next hp =>
        injection h with h; subst h
        refine ⟨rfl, vs, ?_⟩
        have hp' : ¬m.patches.length = 0 := by simpa using hp
        rw [if_neg hp']
      next hp =>
        injection h with h; subst h
        simp only [ne_eq, not_not] at hp
        exact ⟨rfl, vs, by simp [hp]⟩

/-- C7.  One step of the `ObjReader::read` line loop: faces and patches are
append-only, and every face emitted by the processed line carries
`patch = None` when no `g` line has been seen (patch list empty) and
`patch = Some(last declared patch index)` otherwise.  Chained over the line
list, this is exactly the claimed patch-assignment discipline. -/
theorem c7_patch_assignment (m : PolygonSoup) (line : List Char) (m' : PolygonSoup)
    (h : processLine m line = .ok m') :
    (∃ t, m'.faces = m.faces ++ t) ∧ (∃ t, m'.patches = m.patches ++ t) ∧
    (∀ f ∈ m'.faces.drop m.faces.length,
      f.patch = if m.patches.length = 0 then none else some (m.patches.length - 1)) := by
  unfold processLine at h
  by_cases hv : (splitFirstWs (trimChars line)).1 = ['v']
  · rw [if_pos hv] at h
    cases hd : (splitFirstWs (trimChars line)).2 with
    | none => rw [hd] at h; cases h
    | some d =>
      rw [hd] at h
      obtain ⟨hf, hp, _, hvtx⟩ := parse_vertex_ok_shape m d m' h
      refine ⟨⟨[], by simp [hf]⟩, ⟨[], by simp [hp]⟩, ?_⟩
      intro f hfm
      rw [hf, List.drop_length] at hfm
      cases hfm
  · rw [if_neg hv] at h
    by_cases hfl : (splitFirstWs (trimChars line)).1 = ['f']
    · rw [if_pos hfl] at h
      cases hd : (splitFirstWs (trimChars line)).2 with
      | none => rw [hd] at h; cases h
      | some d =>
        rw [hd] at h
        obtain ⟨hp, vs, hf⟩ := parse_face_ok_shape m d m' h
        refine ⟨⟨_, hf⟩, ⟨[], by simp [hp]⟩, ?_⟩
        intro f hfm
        rw [hf] at hfm
        rw [List.drop_left] at hfm
        rcases List.mem_singleton.mp hfm with rfl
        rfl
    · rw [if_neg hfl] at h
      by_cases hg : (splitFirstWs (trimChars line)).1 = ['g']
      · rw [if_pos hg] at h
        cases hd : (splitFirstWs (trimChars line)).2 with
        | none => rw [hd] at h; cases h
        | some d =>
          rw [hd] at h
          unfold ObjReader.parse_group at h
          injection h with h; subst h
          refine ⟨⟨[], by simp⟩, ⟨_, rfl⟩, ?_⟩
          intro f hfm
          rw [List.drop_length] at hfm
          cases hfm
      · rw [if_neg hg] at h
        injection h with h; subst h
        refine ⟨⟨[], by simp⟩, ⟨[], by simp⟩, ?_⟩
        intro f hfm
        rw [List.drop_length] at hfm
        cases hfm

/-- C7 witness: `f 1 2 3` against a soup with two declared patches emits one
face tagged `Some 1` (the last declared patch), via the theorem. -/
theorem c7_patch_assignment_witness :
    (∃ t, c7Soup'.faces = c7Soup.faces ++ t) ∧
    (∃ t, c7Soup'.patches = c7Soup.patches ++ t) ∧
    (∀ f ∈ c7Soup'.faces.drop c7Soup.faces.length,
      f.patch = if c7Soup.patches.length = 0 then none
                else some (c7Soup.patches.length - 1)) :=
  c7_patch_assignment c7Soup (String.data "f 1 2 3") c7Soup' (by decide)

/-- Helper: a successful node lookup is a map entry. -/
theorem lookupNode_mem : ∀ {ns : List (ℕ × OctreeNode)} {c : ℕ} {n : OctreeNode},
    lookupNode ns c = some n → (c, n) ∈ ns := by
  intro ns
  induction ns with
  | nil => intro c n h; cases h
  | cons p rest ih =>
    intro c n h
    unfold lookupNode at h
    by_cases hp : p.1 = c
    · rw [if_pos hp] at h
      injection h with h
      subst h; subst hp
      exact List.mem_cons_self p rest
    · rw [if_neg hp] at h
      exact List.mem_cons_of_mem _ (ih h)

/-- Helper: membership in an overwritten node map. -/
theorem mem_setNode {p : ℕ × OctreeNode} {ns : List (ℕ × OctreeNode)} {c : ℕ}
    {n : OctreeNode} (h : p ∈ setNode ns c n) : p = (c, n) ∨ p ∈ ns := by
  rcases List.mem_cons.mp h with h | h
  · exact Or.inl h
  · exact Or.inr (List.mem_of_mem_filter h)

/-- Helper: looking up the freshly written code. -/
theorem lookupNode_set_self (ns : List (ℕ × OctreeNode)) (c : ℕ) (n : OctreeNode) :
    lookupNode (setNode ns c n) c = some n := by
  simp [setNode, lookupNode]

/-- Helper: overwriting one code leaves the others unchanged. -/
theorem lookupNode_set_other (ns : List (ℕ × OctreeNode)) (c c' : ℕ) (n : OctreeNode)
    (h : c' ≠ c) : lookupNode (setNode ns c n) c' = lookupNode ns c' := by
  unfold setNode
  rw [lookupNode]
  rw [if_neg (fun hh => h hh.symm)]
  induction ns with
  | nil => rfl
  | cons p rest ih =>
    rw [List.filter_cons]
    by_cases hp : p.1 = c
    · have hnot : ¬p.1 = c' := by rw [hp]; exact fun hh => h hh.symm
      rw [if_neg (by simp [hp])]
      rw [ih]
      conv_rhs => rw [lookupNode]
      rw [if_neg hnot]
    · rw [if_pos (by simp [hp])]
      conv_lhs => rw [lookupNode]
      conv_rhs => rw [lookupNode]
      by_cases hpc : p.1 = c'
      · rw [if_pos hpc, if_pos hpc]
      · rw [if_neg hpc, if_neg hpc]
        exact ih

/-- Helper: map keys are bounded by `maxCode`. -/
theorem le_maxCode : ∀ {ns : List (ℕ × OctreeNode)} {p : ℕ × OctreeNode},
    p ∈ ns → p.1 ≤ maxCode ns := by
  intro ns
  induction ns with
  | nil => intro p h; cases h
  | cons a rest ih =>
    intro p h
    rcases List.mem_cons.mp h with rfl | h
    · exact le_max_left _ _
    · exact le_trans (ih h) (le_max_right _ _)

/-- Helper: queue weights are positive. -/
theorem vWeight_pos (M c : ℕ) : 0 < vWeight M c := by
  unfold vWeight; split
  · omega
  · exact pow_pos (by omega) _

/-- Helper: measure of a non-empty queue. -/
theorem muQ_cons (M c : ℕ) (q : List ℕ) : muQ M (c :: q) = vWeight M c + muQ M q := by
  simp [muQ]

/-- Helper: measure of a concatenation. -/
theorem muQ_append (M : ℕ) (a b : List ℕ) : muQ M (a ++ b) = muQ M a + muQ M b := by
  simp [muQ]

/-- Helper: measure is order-independent on a reversal. -/
theorem muQ_reverse (M : ℕ) (l : List ℕ) : muQ M l.reverse = muQ M l := by
  unfold muQ
  rw [List.map_reverse, List.sum_reverse]

/-- Helper: expanding a node strictly decreases the measure: the eight
children of an in-map code weigh less than the code itself. -/
theorem childCodes_mu_lt (M c : ℕ) (hc1 : 1 ≤ c) (hcM : c ≤ M) :
    muQ M (childCodes c) < vWeight M c := by
  have hb : ∀ w ∈ (childCodes c).map (vWeight M), w ≤ 9 ^ (M - c) := by
    intro w hw
    rcases List.mem_map.mp hw with ⟨cc, hcc, rfl⟩
    rcases List.mem_map.mp hcc with ⟨k, hk, rfl⟩
    have hk8 : k < 8 := List.mem_range.mp hk
    unfold vWeight
    split
    · exact Nat.one_le_pow _ _ (by omega)
    · next hle =>
      apply Nat.pow_le_pow_right (by omega)
      omega
  have hsum := List.sum_le_card_nsmul ((childCodes c).map (vWeight M)) (9 ^ (M - c)) hb
  have hlen : ((childCodes c).map (vWeight M)).length = 8 := by simp [childCodes]
  rw [hlen, smul_eq_mul] at hsum
  have hV : vWeight M c = 9 ^ (M + 1 - c) := by unfold vWeight; rw [if_neg (by omega)]
  have h9 : 9 ^ (M + 1 - c) = 9 ^ (M - c) * 9 := by
    rw [← pow_succ]
    congr 1
    omega
  have hp : 0 < 9 ^ (M - c) := pow_pos (by omega) (M - c)
  unfold muQ
  omega

/-- Helper: the fuel `Octree.insert` passes to the BFS exceeds the measure of
the initial queue. -/
theorem muQ_one_lt_fuelFor (ns : List (ℕ × OctreeNode)) :
    muQ (maxCode ns) [1] < fuelFor ns := by
  have h1 : muQ (maxCode ns) [1] = vWeight (maxCode ns) 1 := by simp [muQ]
  rw [h1]
  unfold vWeight fuelFor
  split
  · exact Nat.one_lt_pow (by omega) (by omega)
  · simp only [Nat.add_sub_cancel]
    exact Nat.pow_lt_pow_right (by omega) (by omega)

/-- Helper: with fuel above the queue measure the placement BFS, run on a
node map whose leaves all miss the item, terminates with the map and the
recorded codes unchanged. -/
theorem insertGo_no_leaf_hit {T : Type} (inter : T → Aabb → Bool) (x : T)
    (idx M : ℕ) (ns : List (ℕ × OctreeNode))
    (hnsM : ∀ p ∈ ns, p.1 ≤ M)
    (hleaf : ∀ p ∈ ns, p.2.is_leaf = true → inter x p.2.bounds = false) :
    ∀ (fuel : ℕ) (queue codes : List ℕ),
      (∀ c ∈ queue, 1 ≤ c) → muQ M queue < fuel →
      insertGo inter x idx fuel queue ns codes = some (ns, codes) := by
  intro fuel
  induction fuel with
  | zero => intro queue codes _ hμ; exact absurd hμ (Nat.not_lt_zero _)
  | succ f ih =>
    intro queue codes hq hμ
    cases queue with
    | nil => simp [insertGo]
    | cons c rest =>
      have hrest1 : ∀ c' ∈ rest, 1 ≤ c' := fun c' h => hq c' (List.mem_cons_of_mem _ h)
      have hVpos := vWeight_pos M c
      rw [muQ_cons] at hμ
      cases hl : lookupNode ns c with
      | none =>
        simp only [insertGo, hl]
        exact ih rest codes hrest1 (by omega)
      | some node =>
        simp only [insertGo, hl]
        by_cases hi : inter x node.bounds = true
        · by_cases hle : node.is_leaf = true
          · have hf := hleaf (c, node) (lookupNode_mem hl) hle
            rw [hf] at hi
            cases hi
          · rw [if_pos hi, if_neg hle]
            have hcM : c ≤ M := hnsM (c, node) (lookupNode_mem hl)
            have hc1 : 1 ≤ c := hq c (List.mem_cons_self _ _)
            have hlt := childCodes_mu_lt M c hc1 hcM
            refine ih _ codes ?_ ?_
            · intro c' hc'
              rcases List.mem_append.mp hc' with hc' | hc'
              · rcases List.mem_map.mp (List.mem_reverse.mp hc') with ⟨k, _, rfl⟩
                omega
              · exact hrest1 c' hc'
            · rw [muQ_append, muQ_reverse]
              omega
        · rw [if_neg hi]
          exact ih rest codes hrest1 (by omega)

/-- C9.  If the item intersects the bounds of no allocated leaf — in
particular when it misses the whole root box — the BFS records no code,
`insert` hits `panic!("item not inserted")` before `self.items.push(item)`
and before any split, and, since the BFS only mutates leaves the item
intersects, the octree at the moment of the panic is exactly the input: no
item appended, no node touched. -/
theorem c9_insert_no_overlap_unchanged {T : Type} (inter : T → Aabb → Bool)
    (o : Octree T) (x : T)
    (hleaf : ∀ p ∈ o.nodes, p.2.is_leaf = true → inter x p.2.bounds = false) :
    Octree.insert inter o x = .notInserted o := by
  unfold Octree.insert
  have hrun := insertGo_no_leaf_hit inter x o.items.length (maxCode o.nodes) o.nodes
      (fun p hp => le_maxCode hp) hleaf (fuelFor o.nodes) [1] []
      (by intro c hc; rcases List.mem_singleton.mp hc with rfl; omega)
      (muQ_one_lt_fuelFor o.nodes)
  rw [hrun]
  rfl

/-- C9 witness: inserting the point `(1,1,1)` into a fresh unit-cube octree
panics with the octree unchanged, via the theorem. -/
theorem c9_insert_no_overlap_witness :
    Octree.insert pointInter c9WTree c9WPoint = .notInserted c9WTree :=
  c9_insert_no_overlap_unchanged pointInter c9WTree c9WPoint (by decide)

/-- Helper: `leafFlag` after an overwrite. -/
theorem leafFlag_setNode (ns : List (ℕ × OctreeNode)) (c c' : ℕ) (n : OctreeNode) :
    leafFlag (setNode ns c n) c' =
      if c' = c then some n.is_leaf else leafFlag ns c' := by
  by_cases h : c' = c
  · subst h; rw [if_pos rfl]; unfold leafFlag; rw [lookupNode_set_self]; rfl
  · rw [if_neg h]; unfold leafFlag; rw [lookupNode_set_other _ _ _ _ h]

/-- Helper: `codeAt` after an overwrite. -/
theorem codeAt_setNode (ns : List (ℕ × OctreeNode)) (c c' : ℕ) (n : OctreeNode) :
    codeAt (setNode ns c n) c' = if c' = c then some n.code else codeAt ns c' := by
  by_cases h : c' = c
  · subst h; rw [if_pos rfl]; unfold codeAt; rw [lookupNode_set_self]; rfl
  · rw [if_neg h]; unfold codeAt; rw [lookupNode_set_other _ _ _ _ h]

/-- Helper: a code-consistent map stores nodes under their own codes. -/
theorem codesOK_lookup {ns : List (ℕ × OctreeNode)} {c : ℕ} {n : OctreeNode}
    (h : CodesOK ns) (hl : lookupNode ns c = some n) : n.code = c :=
  h (c, n) (lookupNode_mem hl)

/-- Helper: `QSound` only inspects leaf flags. -/
theorem qsound_congr {ns ns' : List (ℕ × OctreeNode)}
    (h : ∀ c, leafFlag ns' c = leafFlag ns c) (c : ℕ) :
    QSound ns' c ↔ QSound ns c := by unfold QSound; rw [h]

/-- Helper: `CSound` only inspects leaf flags. -/
theorem csound_congr {ns ns' : List (ℕ × OctreeNode)}
    (h : ∀ c, leafFlag ns' c = leafFlag ns c) (c : ℕ) :
    CSound ns' c ↔ CSound ns c := by unfold CSound; rw [h, qsound_congr h]

/-- Helper: recorded codes are positive. -/
theorem csound_one_le {ns : List (ℕ × OctreeNode)} {c : ℕ} (h : CSound ns c) :
    1 ≤ c := by
  rcases h.2 with rfl | ⟨h8, _⟩ <;> omega

/-- Helper: no recorded code is a child of another recorded code — a
recorded code is a leaf, but the parent of any recorded non-root code is a
non-leaf. -/
theorem csound_not_child {ns : List (ℕ × OctreeNode)} {c c' : ℕ}
    (h : CSound ns c) (h' : CSound ns c') (k : ℕ) (hk : k < 8) :
    c' ≠ c * 8 + k := by
  intro he
  have hc1 : 1 ≤ c := csound_one_le h
  rcases h'.2 with h1 | ⟨h8, hpar⟩
  · omega
  · have hdiv : c' / 8 = c := by omega
    rw [hdiv] at hpar
    rw [h.1] at hpar
    simp at hpar

/-- Helper: the placement BFS preserves every node's leaf flag and stored
code, keeps the map code-consistent, and every code it records denotes an
allocated leaf that was reached from the root through non-leaf parents. -/
theorem insertGo_spec {T : Type} (inter : T → Aabb → Bool) (x : T) (idx : ℕ) :
    ∀ (fuel : ℕ) (queue : List ℕ) (ns : List (ℕ × OctreeNode)) (codes : List ℕ)
      (ns' : List (ℕ × OctreeNode)) (codes' : List ℕ),
      insertGo inter x idx fuel queue ns codes = some (ns', codes') →
      (∀ c, leafFlag ns' c = leafFlag ns c) ∧
      (∀ c, codeAt ns' c = codeAt ns c) ∧
      (CodesOK ns → CodesOK ns') ∧
      ((∀ c ∈ queue, QSound ns c) → (∀ c ∈ codes, CSound ns c) →
        ∀ c ∈ codes', CSound ns c) := by
  intro fuel
  induction fuel with
  | zero => intro queue ns codes ns' codes' h; cases h
  | succ f ih =>
    intro queue ns codes ns' codes' h
    cases queue with
    | nil =>
      simp only [insertGo] at h
      injection h with h
      injection h with h1 h2
      subst h1; subst h2
      exact ⟨fun _ => rfl, fun _ => rfl, fun hk => hk, fun _ hc => hc⟩
    | cons c rest =>
      cases hl : lookupNode ns c with
      | none =>
        simp only [insertGo, hl] at h
        obtain ⟨h1, h2, h3, h4⟩ := ih rest ns codes ns' codes' h
        exact ⟨h1, h2, h3,
          fun hq hc => h4 (fun c' h' => hq c' (List.mem_cons_of_mem _ h')) hc⟩
      | some node =>
        simp only [insertGo, hl] at h
        by_cases hi : inter x node.bounds = true
        · by_cases hle : node.is_leaf = true
          · rw [if_pos hi, if_pos hle] at h
            obtain ⟨h1, h2, h3, h4⟩ :=
              ih rest (setNode ns c { node with items := node.items ++ [idx] })
                (codes ++ [c]) ns' codes' h
            have hflag : ∀ c',
                leafFlag (setNode ns c { node with items := node.items ++ [idx] }) c' =
                  leafFlag ns c' := by
              intro c'
              rw [leafFlag_setNode]
              by_cases hc' : c' = c
              · subst hc'; rw [if_pos rfl]; unfold leafFlag; rw [hl]; rfl
              · rw [if_neg hc']
            have hcd : ∀ c',
                codeAt (setNode ns c { node with items := node.items ++ [idx] }) c' =
                  codeAt ns c' := by
              intro c'
              rw [codeAt_setNode]
              by_cases hc' : c' = c
              · subst hc'; rw [if_pos rfl]; unfold codeAt; rw [hl]; rfl
              · rw [if_neg hc']
            refine ⟨fun c' => (h1 c').trans (hflag c'),
              fun c' => (h2 c').trans (hcd c'), ?_, ?_⟩
            · intro hk
              refine h3 ?_
              intro p hp
              rcases mem_setNode hp with rfl | hp
              · show node.code = c
                exact codesOK_lookup hk hl
              · exact hk p hp
            · intro hq hc
              have hq1 : ∀ c' ∈ rest,
                  QSound (setNode ns c { node with items := node.items ++ [idx] }) c' :=
                fun c' h' =>
                  (qsound_congr hflag c').mpr (hq c' (List.mem_cons_of_mem _ h'))
              have hc1 : ∀ c' ∈ codes ++ [c],
                  CSound (setNode ns c { node with items := node.items ++ [idx] }) c' := by
                intro c' h'
                rcases List.mem_append.mp h' with h' | h'
                · exact (csound_congr hflag c').mpr (hc c' h')
                · rcases List.mem_singleton.mp h' with rfl
                  refine (csound_congr hflag c').mpr
                    ⟨?_, hq c' (List.mem_cons_self _ _)⟩
                  unfold leafFlag; rw [hl]
                  simp [hle]
              intro c' h'
              exact (csound_congr hflag c').mp (h4 hq1 hc1 c' h')
          · rw [if_pos hi, if_neg hle] at h
            obtain ⟨h1, h2, h3, h4⟩ := ih _ ns codes ns' codes' h
            refine ⟨h1, h2, h3, ?_⟩
            intro hq hc
            refine h4 ?_ hc
            intro c' h'
            rcases List.mem_append.mp h' with h' | h'
            · rcases List.mem_map.mp (List.mem_reverse.mp h') with ⟨k, hk, rfl⟩
              have hk8 : k < 8 := List.mem_range.mp hk
              have hqc := hq c (List.mem_cons_self _ _)
              have hc1 : 1 ≤ c := by
                rcases hqc with rfl | ⟨h8, _⟩ <;> omega
              refine Or.inr ⟨by omega, ?_⟩
              have hdiv : (c * 8 + k) / 8 = c := by omega
              rw [hdiv]
              have hleaf : node.is_leaf = false := by
                revert hle; cases node.is_leaf <;> simp
              unfold leafFlag; rw [hl]
              simp [hleaf]
            · exact hq c' (List.mem_cons_of_mem _ h')
        · rw [if_neg hi] at h
          obtain ⟨h1, h2, h3, h4⟩ := ih rest ns codes ns' codes' h
          exact ⟨h1, h2, h3,
            fun hq hc => h4 (fun c' h' => hq c' (List.mem_cons_of_mem _ h')) hc⟩

/-- Helper: a fold of overwrites at codes `g k` leaves other codes alone. -/
theorem lookupNode_foldl_setNode (g : ℕ → ℕ) (f : ℕ → OctreeNode) :
    ∀ (l : List ℕ) (ns : List (ℕ × OctreeNode)) (c : ℕ),
      (∀ k ∈ l, c ≠ g k) →
      lookupNode (l.foldl (fun ns k => setNode ns (g k) (f k)) ns) c =
        lookupNode ns c := by
  intro l
  induction l with
  | nil => intro ns c _; rfl
  | cons k rest ih =>
    intro ns c hne
    rw [List.foldl_cons]
    rw [ih _ _ (fun k' h' => hne k' (List.mem_cons_of_mem _ h'))]
    exact lookupNode_set_other _ _ _ _ (hne k (List.mem_cons_self _ _))

/-- Helper: members of a fold of overwrites. -/
theorem mem_foldl_setNode (g : ℕ → ℕ) (f : ℕ → OctreeNode) :
    ∀ (l : List ℕ) (ns : List (ℕ × OctreeNode)) (p : ℕ × OctreeNode),
      p ∈ l.foldl (fun ns k => setNode ns (g k) (f k)) ns →
      (∃ k ∈ l, p = (g k, f k)) ∨ p ∈ ns := by
  intro l
  induction l with
  | nil => intro ns p h; exact Or.inr h
  | cons k rest ih =>
    intro ns p h
    rw [List.foldl_cons] at h
    rcases ih _ p h with ⟨k', hk', rfl⟩ | h
    · exact Or.inl ⟨k', List.mem_cons_of_mem _ hk', rfl⟩
    · rcases mem_setNode h with rfl | h
      · exact Or.inl ⟨k, List.mem_cons_self _ _, rfl⟩
      · exact Or.inr h

/-- Helper: after `split`, the split node itself is stored as an (empty)
non-leaf. -/
theorem split_lookup_self {T : Type} (inter : T → Aabb → Bool) (o : Octree T)
    (c : ℕ) (node : OctreeNode) (hl : lookupNode o.nodes c = some node)
    (hcode : node.code = c) (hc1 : 1 ≤ c) (hcan : node.can_split = true) :
    lookupNode (Octree.split inter o c).nodes c =
      some { node with is_leaf := false, items := [] } := by
  simp only [Octree.split, hl]
  rw [if_neg (by rw [hcan]; simp)]
  rw [lookupNode_foldl_setNode]
  · exact lookupNode_set_self _ _ _
  · intro k hk
    have hk8 : k < 8 := List.mem_range.mp hk
    rw [hcode]
    omega

/-- Helper: `split` only touches the split code and its eight children. -/
theorem split_lookup_other {T : Type} (inter : T → Aabb → Bool) (o : Octree T)
    (c₀ c : ℕ) (hcode : CodesOK o.nodes) (hne : c ≠ c₀)
    (hch : ∀ k, k < 8 → c ≠ c₀ * 8 + k) :
    lookupNode (Octree.split inter o c₀).nodes c = lookupNode o.nodes c := by
  unfold Octree.split
  cases hl : lookupNode o.nodes c₀ with
  | none => rfl
  | some node =>
    simp only
    by_cases hcan : (!node.can_split) = true
    · rw [if_pos hcan]
    · rw [if_neg hcan]
      have hnc : node.code = c₀ := codesOK_lookup hcode hl
      rw [lookupNode_foldl_setNode]
      · exact lookupNode_set_other _ _ _ _ hne
      · intro k hk
        have hk8 : k < 8 := List.mem_range.mp hk
        rw [hnc]
        exact hch k hk8

/-- Helper: `split` keeps the map code-consistent. -/
theorem codesOK_split {T : Type} (inter : T → Aabb → Bool) (o : Octree T)
    (c₀ : ℕ) (h : CodesOK o.nodes) : CodesOK (Octree.split inter o c₀).nodes := by
  unfold Octree.split
  cases hl : lookupNode o.nodes c₀ with
  | none => exact h
  | some node =>
    simp only
    by_cases hcan : (!node.can_split) = true
    · rw [if_pos hcan]; exact h
    · rw [if_neg hcan]
      intro p hp
      rcases mem_foldl_setNode _ _ _ _ p hp with ⟨k, hk, rfl⟩ | hp
      · rfl
      · rcases mem_setNode hp with rfl | hp
        · show node.code = c₀
          exact codesOK_lookup h hl
        · exact h p hp

/-- Helper: `splitStep` keeps the map code-consistent. -/
theorem codesOK_splitStep {T : Type} (inter : T → Aabb → Bool) (o : Octree T)
    (c₀ : ℕ) (h : CodesOK o.nodes) : CodesOK (splitStep inter o c₀).nodes := by
  unfold splitStep
  cases hl : lookupNode o.nodes c₀ with
  | none => exact h
  | some n =>
    simp only
    by_cases hs : n.should_split = true
    · rw [if_pos hs]; exact codesOK_split inter o c₀ h
    · rw [if_neg hs]; exact h

/-- Helper: one step of the split loop leaves its own code non-splittable:
either the node was fine already, or it has just been split and is no longer
a leaf. -/
theorem splitStep_establishes {T : Type} (inter : T → Aabb → Bool) (o : Octree T)
    (c : ℕ) (hc1 : 1 ≤ c) (hcode : CodesOK o.nodes) :
    notOverfull (splitStep inter o c).nodes c := by
  unfold splitStep
  cases hl : lookupNode o.nodes c with
  | none =>
    simp only
    intro n hn
    rw [hl] at hn
    cases hn
  | some n =>
    simp only
    by_cases hs : n.should_split = true
    · rw [if_pos hs]
      have hcan : n.can_split = true := by
        unfold OctreeNode.should_split at hs
        exact (Bool.and_eq_true _ _).mp hs |>.2
      have hself := split_lookup_self inter o c n hl (codesOK_lookup hcode hl) hc1 hcan
      intro n' hn'
      rw [hself] at hn'
      injection hn' with hn'
      subst hn'
      unfold OctreeNode.should_split OctreeNode.can_split
      simp
    · rw [if_neg hs]
      intro n' hn'
      rw [hl] at hn'
      injection hn' with hn'
      subst hn'
      revert hs
      cases n.should_split <;> simp

/-- Helper: one step of the split loop cannot make another recorded code
over-full: it only rewrites its own code (handled by `splitStep_establishes`)
and that code's children (never another recorded code). -/
theorem splitStep_preserves {T : Type} (inter : T → Aabb → Bool) (o : Octree T)
    (c₀ c : ℕ) (hcode : CodesOK o.nodes) (hc₀ : 1 ≤ c₀)
    (hch : ∀ k, k < 8 → c ≠ c₀ * 8 + k) (hno : notOverfull o.nodes c) :
    notOverfull (splitStep inter o c₀).nodes c := by
  by_cases hcc : c = c₀
  · subst hcc
    exact splitStep_establishes inter o c hc₀ hcode
  · unfold splitStep
    cases hl : lookupNode o.nodes c₀ with
    | none => simp only; exact hno
    | some n =>
      simp only
      by_cases hs : n.should_split = true
      · rw [if_pos hs]
        intro n' hn'
        rw [split_lookup_other inter o c₀ c hcode hcc hch] at hn'
        exact hno n' hn'
      · rw [if_neg hs]; exact hno

/-- Helper: `notOverfull` survives the remainder of the split loop. -/
theorem foldl_splitStep_preserves {T : Type} (inter : T → Aabb → Bool) (c : ℕ) :
    ∀ (l : List ℕ) (o : Octree T),
      CodesOK o.nodes →
      (∀ c'' ∈ l, 1 ≤ c'') →
      (∀ c'' ∈ l, ∀ k, k < 8 → c ≠ c'' * 8 + k) →
      notOverfull o.nodes c →
      notOverfull (l.foldl (splitStep inter) o).nodes c := by
  intro l
  induction l with
  | nil => intro o _ _ _ h; exact h
  | cons c₀ rest ih =>
    intro o hcode h1 hpw hno
    rw [List.foldl_cons]
    refine ih (splitStep inter o c₀) (codesOK_splitStep _ _ _ hcode)
      (fun c'' h => h1 c'' (List.mem_cons_of_mem _ h))
      (fun c'' h => hpw c'' (List.mem_cons_of_mem _ h)) ?_
    exact splitStep_preserves inter o c₀ c hcode (h1 c₀ (List.mem_cons_self _ _))
      (hpw c₀ (List.mem_cons_self _ _)) hno

/-- Helper: after the whole split loop, no processed code is an over-full
splittable leaf. -/
theorem foldl_splitStep_notOverfull {T : Type} (inter : T → Aabb → Bool) :
    ∀ (codes : List ℕ) (o : Octree T),
      CodesOK o.nodes →
      (∀ c ∈ codes, 1 ≤ c) →
      (∀ c ∈ codes, ∀ c' ∈ codes, ∀ k, k < 8 → c' ≠ c * 8 + k) →
      ∀ c ∈ codes, notOverfull (codes.foldl (splitStep inter) o).nodes c := by
  intro codes
  induction codes with
  | nil => intro o _ _ _ c hc; cases hc
  | cons c₀ rest ih =>
    intro o hcode h1 hpw c hc
    rw [List.foldl_cons]
    rcases List.mem_cons.mp hc with rfl | hc
    · refine foldl_splitStep_preserves inter c rest (splitStep inter o c)
        (codesOK_splitStep _ _ _ hcode)
        (fun c'' h => h1 c'' (List.mem_cons_of_mem _ h))
        (fun c'' h => hpw c'' (List.mem_cons_of_mem _ h) c (List.mem_cons_self _ _)) ?_
      exact splitStep_establishes inter o c (h1 c (List.mem_cons_self _ _)) hcode
    · exact ih (splitStep inter o c₀) (codesOK_splitStep _ _ _ hcode)
        (fun c'' h => h1 c'' (List.mem_cons_of_mem _ h))
        (fun a ha b hb => hpw a (List.mem_cons_of_mem _ ha) b (List.mem_cons_of_mem _ hb))
        c hc

/-- C2 (amended).  After a successful `insert` into a code-consistent octree,
none of the leaves into which the item was placed (the recorded `codes` of
the BFS) remains an over-full splittable leaf: each such leaf is split if it
exceeded capacity.  What the original claim adds — that leaves **created by
that split** are also within capacity — is false (see
`c2_counterexample_overfull_child_leaf`): `split` is not recursive, so a
child inheriting all items can stay an over-full splittable leaf until a
later insert places an item into it. -/
theorem c2_amended_insert_splits_recorded_leaves {T : Type}
    (inter : T → Aabb → Bool) (o : Octree T) (x : T) (i : ℕ) (o' : Octree T)
    (ns1 : List (ℕ × OctreeNode)) (codes : List ℕ)
    (hcode : CodesOK o.nodes)
    (hins : Octree.insert inter o x = .ok i o')
    (hpl : placeCodes inter o x = some (ns1, codes)) :
    ∀ c ∈ codes, notOverfull o'.nodes c := by
  unfold placeCodes at hpl
  unfold Octree.insert at hins
  simp only [hpl] at hins
  by_cases hemp : codes.isEmpty = true
  · rw [if_pos hemp] at hins; cases hins
  · rw [if_neg hemp] at hins
    injection hins with h1 h2
    subst h2
    obtain ⟨hflag, hcodeat, hok, hsound⟩ := insertGo_spec inter x o.items.length
      (fuelFor o.nodes) [1] o.nodes [] ns1 codes hpl
    have hcs : ∀ c ∈ codes, CSound o.nodes c :=
      hsound
        (by intro c hc; rcases List.mem_singleton.mp hc with rfl; exact Or.inl rfl)
        (by intro c hc; cases hc)
    have h1le : ∀ c ∈ codes, 1 ≤ c := fun c hc => csound_one_le (hcs c hc)
    have hpw : ∀ c ∈ codes, ∀ c' ∈ codes, ∀ k, k < 8 → c' ≠ c * 8 + k :=
      fun c hc c' hc' k hk => csound_not_child (hcs c hc) (hcs c' hc') k hk
    have hok1 : CodesOK ns1 := hok hcode
    exact foldl_splitStep_notOverfull inter codes
      { nodes := ns1, items := o.items ++ [x] } hok1 h1le hpw

/-- C2 witness: one insert into a fresh unit octree; the recorded leaf (the
root) is not left over-full, via the amended theorem. -/
theorem c2_amended_witness : notOverfull c2WOut.nodes 1 :=
  c2_amended_insert_splits_recorded_leaves unitInter c2WTree () 0 c2WOut
    c2WPlace.1 c2WPlace.2 (by unfold CodesOK; decide) (by rfl) (by rfl)
    1 (by decide)

set_option maxRecDepth 100000 in
/-- C1.  The claim is false on the code, which the spec itself flags in its
design notes: inside `orient`'s BFS the inner loop guards on
`!oriented[current]` — an index that was just set — instead of
`!oriented[neighbor]`, so no neighbor is ever enqueued or flipped and
`orient` leaves the mesh unchanged.  On the tetrahedron `tetSoup` whose
fourth face is wound backwards, construction succeeds, the mesh is closed
and inconsistent, and it is still inconsistent after `orient()`, where the
claim requires `is_consistent()` to become true. -/
theorem c1_orient_is_a_noop_on_inconsistent_mesh :
    HeMesh.new tetSoup = .ok tetMesh ∧
    tetMesh.is_closed = true ∧
    tetMesh.is_consistent = false ∧
    tetMesh.orient = tetMesh ∧
    (tetMesh.orient).is_consistent = false := by
  refine ⟨by decide, by decide, by decide, by decide, by decide⟩

set_option maxRecDepth 100000 in
/-- C8.  The claim is false on the code and the code contradicts its own
doc comment ("Get the axis-aligned bounding box"): the loop updates the
running maximum in an `else if`, so any vertex that lowers the running
minimum never updates the maximum.  On `c8Soup` — vertices `(1,1,1)` then
`(0,0,0)` — both vertices only lower the minimum, `max` stays `-∞`, and the
returned box's `max()` is `(-∞,-∞,-∞)` instead of the componentwise maximum
`(1,1,1)` (IEEE: `center = halfsize = -∞`, `max = -∞ + -∞ = -∞`). -/
theorem c8_bounds_misses_max :
    HeMesh.new c8Soup = .ok c8Mesh ∧
    c8Mesh.vertices.map (fun v => v.origin) =
      [⟨qi 1, qi 1, qi 1⟩, ⟨qi 0, qi 0, qi 0⟩] ∧
    (c8Mesh.bounds).hi = ⟨.ninf, .ninf, .ninf⟩ := by
  refine ⟨by decide, by decide, by decide⟩

/-- Helper: `getD` at a freshly `set` index. -/
theorem getD_set_self {α : Type} [Inhabited α] (l : List α) (i : ℕ) (x : α)
    (h : i < l.length) : (l.set i x).getD i default = x := by
  rw [List.getD_eq_getElem?_getD, List.getElem?_set_self h]
  rfl

/-- Helper: `getD` away from a `set` index. -/
theorem getD_set_ne {α : Type} [Inhabited α] (l : List α) (i j : ℕ) (x : α)
    (h : j ≠ i) : (l.set i x).getD j default = l.getD j default := by
  rw [List.getD_eq_getElem?_getD, List.getElem?_set_ne (fun hh => h hh.symm),
    ← List.getD_eq_getElem?_getD]

/-- Helper: side-table lookup after replacing a key's entry. -/
theorem idxLookup_update_self (k : ℕ × ℕ) (l : List ℕ) :
    ∀ idx, idxLookup (idxUpdate idx k l) k = some l := by
  intro idx
  induction idx with
  | nil => simp [idxUpdate, idxLookup]
  | cons e rest ih =>
    by_cases h : e.1 = k
    · simp [idxUpdate, idxLookup, h]
    · simp only [idxUpdate, if_neg h, idxLookup]
      exact ih

/-- Helper: replacing one key's entry leaves other keys' lookups alone. -/
theorem idxLookup_update_other (k k' : ℕ × ℕ) (l : List ℕ) (h : k' ≠ k) :
    ∀ idx, idxLookup (idxUpdate idx k l) k' = idxLookup idx k' := by
  intro idx
  induction idx with
  | nil =>
    simp only [idxUpdate, idxLookup]
    rw [if_neg (fun hh => h hh.symm)]
  | cons e rest ih =>
    by_cases he : e.1 = k
    · have hne : ¬e.1 = k' := by rw [he]; exact fun hh => h hh.symm
      simp only [idxUpdate, if_pos he, idxLookup]
      rw [if_neg (fun hh => h hh.symm), if_neg hne]
    · simp only [idxUpdate, if_neg he, idxLookup]
      by_cases hk' : e.1 = k'
      · rw [if_pos hk', if_pos hk']
      · rw [if_neg hk', if_neg hk']
        exact ih

/-- Helper: appending a fresh key to the side table. -/
theorem idxLookup_append_fresh (k : ℕ × ℕ) (i : ℕ) :
    ∀ idx, idxLookup idx k = none → ∀ k',
      idxLookup (idx ++ [(k, [i])]) k' =
        if k' = k then some [i] else idxLookup idx k' := by
  intro idx
  induction idx with
  | nil =>
    intro _ k'
    by_cases h' : k' = k
    · subst h'; simp [idxLookup]
    · rw [if_neg h']
      simp only [List.nil_append, idxLookup]
      rw [if_neg (fun hh => h' hh.symm)]
  | cons e rest ih =>
    intro h k'
    by_cases he : e.1 = k
    · rw [idxLookup, if_pos he] at h; cases h
    · rw [idxLookup, if_neg he] at h
      rw [List.cons_append, idxLookup]
      by_cases hk' : e.1 = k'
      · rw [if_pos hk']
        rw [if_neg (fun hkk => he (hk'.trans hkk))]
        rw [idxLookup, if_pos hk']
      · rw [if_neg hk']
        rw [ih h k']
        by_cases hkk : k' = k
        · rw [if_pos hkk, if_pos hkk]
        · rw [if_neg hkk, if_neg hkk, idxLookup, if_neg hk']

/-- Helper: replacing a present key's entry keeps the key list. -/
theorem idxUpdate_keys_of_mem (k : ℕ × ℕ) (l : List ℕ) :
    ∀ idx l₀, idxLookup idx k = some l₀ →
      (idxUpdate idx k l).map (fun e => e.1) = idx.map (fun e => e.1) := by
  intro idx
  induction idx with
  | nil => intro l₀ h; cases h
  | cons e rest ih =>
    intro l₀ h
    by_cases he : e.1 = k
    · simp [idxUpdate, he]
    · rw [idxLookup, if_neg he] at h
      simp only [idxUpdate, if_neg he, List.map_cons]
      rw [ih _ h]

/-- Helper: a key that misses the lookup is not among the keys. -/
theorem idxLookup_none_not_mem (k : ℕ × ℕ) :
    ∀ idx, idxLookup idx k = none → k ∉ idx.map (fun e => e.1) := by
  intro idx
  induction idx with
  | nil => intro _ h; cases h
  | cons e rest ih =>
    intro h hmem
    by_cases he : e.1 = k
    · rw [idxLookup, if_pos he] at h; cases h
    · rw [idxLookup, if_neg he] at h
      rcases List.mem_cons.mp hmem with hh | hh
      · exact he hh.symm
      · exact ih h hh

/-- Helper: a successful side-table lookup is an entry. -/
theorem idxLookup_mem (k : ℕ × ℕ) (l : List ℕ) :
    ∀ idx, idxLookup idx k = some l → (k, l) ∈ idx := by
  intro idx
  induction idx with
  | nil => intro h; cases h
  | cons e rest ih =>
    intro h
    by_cases he : e.1 = k
    · rw [idxLookup, if_pos he] at h
      injection h with h
      subst h; subst he
      exact List.mem_cons_self e rest
    · rw [idxLookup, if_neg he] at h
      exact List.mem_cons_of_mem _ (ih h)

/-- Helper: under `Nodup` keys every entry is its key's lookup. -/
theorem idxLookup_of_mem_nodup :
    ∀ (idx : List ((ℕ × ℕ) × List ℕ)), (idx.map (fun e => e.1)).Nodup →
      ∀ e ∈ idx, idxLookup idx e.1 = some e.2 := by
  intro idx
  induction idx with
  | nil => intro _ e he; cases he
  | cons a rest ih =>
    intro hnd e he
    simp only [List.map_cons, List.nodup_cons] at hnd
    rcases List.mem_cons.mp he with rfl | he
    · rw [idxLookup, if_pos rfl]
    · have hne : ¬a.1 = e.1 := by
        intro hh
        exact hnd.1 (hh ▸ List.mem_map.mpr ⟨e, he, rfl⟩)
      rw [idxLookup, if_neg hne]
      exact ih hnd.2 e he

/-- Helper: key groups distribute over appended handle lists. -/
theorem keyGrp_append (hes : List HeHalfEdge) (P Q : List ℕ) (k : ℕ × ℕ) :
    keyGrp hes (P ++ Q) k = keyGrp hes P k ++ keyGrp hes Q k := by
  unfold keyGrp
  exact List.filter_append P Q

/-- Helper: a handle is in its own key group. -/
theorem keyGrp_singleton_self (hes : List HeHalfEdge) (i : ℕ) :
    keyGrp hes [i] (edgeKey hes i) = [i] := by
  simp [keyGrp]

/-- Helper: a handle is in no other key group. -/
theorem keyGrp_singleton_ne (hes : List HeHalfEdge) (i : ℕ) (k : ℕ × ℕ)
    (h : ¬edgeKey hes i = k) : keyGrp hes [i] k = [] := by
  simp [keyGrp, h]

/-- Helper: head of a key group. -/
theorem keyGrp_cons_self (hes : List HeHalfEdge) (i : ℕ) (rest : List ℕ) :
    keyGrp hes (i :: rest) (edgeKey hes i) =
      i :: keyGrp hes rest (edgeKey hes i) := by
  unfold keyGrp
  rw [List.filter_cons_of_pos (by simp)]

/-- Helper: members of a key group carry that key. -/
theorem keyGrp_mem {hes : List HeHalfEdge} {P : List ℕ} {k : ℕ × ℕ} {i : ℕ}
    (h : i ∈ keyGrp hes P k) : i ∈ P ∧ edgeKey hes i = k := by
  have := List.mem_filter.mp h
  exact ⟨this.1, by simpa using this.2⟩

/-- Helper: `setTwins` does not touch other handles. -/
theorem setTwins_getD_ne (hes : List HeHalfEdge) (a b j : ℕ) (hja : j ≠ a)
    (hjb : j ≠ b) : (setTwins hes a b).getD j default = hes.getD j default := by
  unfold setTwins
  rw [getD_set_ne _ _ _ _ hjb, getD_set_ne _ _ _ _ hja]

/-- Helper: `setTwins` writes `some b` into handle `a`. -/
theorem setTwins_getD_a (hes : List HeHalfEdge) (a b : ℕ) (hab : a ≠ b)
    (ha : a < hes.length) :
    (setTwins hes a b).getD a default =
      { hes.getD a default with twin := some b } := by
  unfold setTwins
  rw [getD_set_ne _ _ _ _ hab, getD_set_self _ _ _ ha]

/-- Helper: `setTwins` writes `some a` into handle `b`. -/
theorem setTwins_getD_b (hes : List HeHalfEdge) (a b : ℕ) (hab : a ≠ b)
    (hb : b < hes.length) :
    (setTwins hes a b).getD b default =
      { hes.getD b default with twin := some a } := by
  unfold setTwins
  rw [getD_set_self _ _ _ (by rw [List.length_set]; exact hb)]
  rw [getD_set_ne _ _ _ _ (fun hh => hab hh.symm)]

/-- Helper: `setTwins` preserves the array length. -/
theorem setTwins_length (hes : List HeHalfEdge) (a b : ℕ) :
    (setTwins hes a b).length = hes.length := by
  unfold setTwins
  rw [List.length_set, List.length_set]

/-- Helper: `setTwins` only rewrites `twin` fields. -/
theorem setTwins_twinOnly (hes : List HeHalfEdge) (a b j : ℕ) :
    ∃ t, (setTwins hes a b).getD j default =
      { hes.getD j default with twin := t } := by
  by_cases hjb : j = b
  · subst hjb
    by_cases hj : j < hes.length
    · by_cases hja : j = a
      · subst hja
        refine ⟨some j, ?_⟩
        unfold setTwins
        rw [getD_set_self _ _ _ (by rw [List.length_set]; exact hj)]
        rw [getD_set_self _ _ _ hj]
      · refine ⟨some a, ?_⟩
        unfold setTwins
        rw [getD_set_self _ _ _ (by rw [List.length_set]; exact hj)]
        rw [getD_set_ne _ _ _ _ hja]
    · refine ⟨(hes.getD j default).twin, ?_⟩
      have hlen : hes.length ≤ j := by omega
      unfold setTwins
      rw [List.getD_eq_default _ _ (by rw [List.length_set, List.length_set]; exact hlen)]
      rw [List.getD_eq_default _ _ hlen]
  · by_cases hja : j = a
    · subst hja
      by_cases hj : j < hes.length
      · refine ⟨some b, ?_⟩
        unfold setTwins
        rw [getD_set_ne _ _ _ _ hjb, getD_set_self _ _ _ hj]
      · refine ⟨(hes.getD j default).twin, ?_⟩
        have hlen : hes.length ≤ j := by omega
        unfold setTwins
        rw [List.getD_eq_default _ _ (by rw [List.length_set, List.length_set]; exact hlen)]
        rw [List.getD_eq_default _ _ hlen]
    · exact ⟨(hes.getD j default).twin, by rw [setTwins_getD_ne hes a b j hja hjb]⟩

/-- Helper: the twin-pairing pass preserves the array length. -/
theorem buildTwins_length :
    ∀ (entries : List ((ℕ × ℕ) × List ℕ)) (hes : List HeHalfEdge),
      (buildTwins entries hes).length = hes.length := by
  intro entries
  induction entries with
  | nil => intro hes; rfl
  | cons e rest ih =>
    intro hes
    rw [buildTwins]
    rcases e with ⟨k, l⟩
    match l with
    | [] => exact ih hes
    | [x] => exact ih hes
    | [x, y] => rw [ih]; exact setTwins_length hes x y
    | x :: y :: z :: t => exact ih hes

/-- Helper: the twin-pairing pass only rewrites `twin` fields. -/
theorem buildTwins_twinOnly :
    ∀ (entries : List ((ℕ × ℕ) × List ℕ)) (hes : List HeHalfEdge) (j : ℕ),
      ∃ t, (buildTwins entries hes).getD j default =
        { hes.getD j default with twin := t } := by
  intro entries
  induction entries with
  | nil => intro hes j; exact ⟨(hes.getD j default).twin, rfl⟩
  | cons e rest ih =>
    intro hes j
    rw [buildTwins]
    rcases e with ⟨k, l⟩
    match l with
    | [] => exact ih hes j
    | [x] => exact ih hes j
    | [x, y] =>
      obtain ⟨t1, h1⟩ := ih (setTwins hes x y) j
      obtain ⟨t0, h0⟩ := setTwins_twinOnly hes x y j
      exact ⟨t1, by rw [h1, h0]⟩
    | x :: y :: z :: t => exact ih hes j

/-- Helper: the twin-pairing pass does not touch a handle that occurs in no
two-element entry. -/
theorem buildTwins_untouched (h : ℕ) :
    ∀ (entries : List ((ℕ × ℕ) × List ℕ)) (hes : List HeHalfEdge),
      (∀ e ∈ entries, ∀ x y, e.2 = [x, y] → h ≠ x ∧ h ≠ y) →
      (buildTwins entries hes).getD h default = hes.getD h default := by
  intro entries
  induction entries with
  | nil => intro hes _; rfl
  | cons e rest ih =>
    intro hes hsep
    rw [buildTwins]
    rcases e with ⟨k, l⟩
    have hrest : ∀ e ∈ rest, ∀ x y, e.2 = [x, y] → h ≠ x ∧ h ≠ y :=
      fun e he => hsep e (List.mem_cons_of_mem _ he)
    match l with
    | [] => exact ih hes hrest
    | [x] => exact ih hes hrest
    | [x, y] =>
      obtain ⟨hx, hy⟩ := hsep (k, [x, y]) (List.mem_cons_self _ _) x y rfl
      rw [ih (setTwins hes x y) hrest]
      exact setTwins_getD_ne hes x y h hx hy
    | x :: y :: z :: t => exact ih hes hrest

/-- Helper: the twin-pairing pass makes the two handles of a two-element
entry mutual twins, provided no other entry mentions either handle. -/
theorem buildTwins_pair (a b : ℕ) (hab : a ≠ b) :
    ∀ (entries : List ((ℕ × ℕ) × List ℕ)) (hes : List HeHalfEdge) (k : ℕ × ℕ),
      (k, [a, b]) ∈ entries →
      (∀ e ∈ entries, e = (k, [a, b]) ∨ (a ∉ e.2 ∧ b ∉ e.2)) →
      a < hes.length → b < hes.length →
      (buildTwins entries hes).getD a default =
        { hes.getD a default with twin := some b } ∧
      (buildTwins entries hes).getD b default =
        { hes.getD b default with twin := some a } := by
  intro entries
  induction entries with
  | nil => intro hes k hmem; cases hmem
  | cons e rest ih =>
    intro hes k hmem hsep ha hb
    rw [buildTwins]
    by_cases he : e = (k, [a, b])
    · subst he
      have hsep' : ∀ e' ∈ rest, e' = (k, [a, b]) ∨ (a ∉ e'.2 ∧ b ∉ e'.2) :=
        fun e' he' => hsep e' (List.mem_cons_of_mem _ he')
      by_cases hmem' : (k, [a, b]) ∈ rest
      · obtain ⟨ha', hb'⟩ := ih (setTwins hes a b) k hmem' hsep'
          (by rw [setTwins_length]; exact ha) (by rw [setTwins_length]; exact hb)
        constructor
        · rw [ha', setTwins_getD_a hes a b hab ha]
        · rw [hb', setTwins_getD_b hes a b hab hb]
      · have huna : ∀ e' ∈ rest, ∀ x y, e'.2 = [x, y] → a ≠ x ∧ a ≠ y := by
          intro e' he' x y hxy
          rcases hsep' e' he' with hh | ⟨hna, _⟩
          · exact absurd (hh ▸ he') hmem'
          · rw [hxy] at hna
            exact ⟨fun hh => hna (by rw [hh]; simp),
              fun hh => hna (by rw [hh]; simp)⟩
        have hunb : ∀ e' ∈ rest, ∀ x y, e'.2 = [x, y] → b ≠ x ∧ b ≠ y := by
          intro e' he' x y hxy
          rcases hsep' e' he' with hh | ⟨_, hnb⟩
          · exact absurd (hh ▸ he') hmem'
          · rw [hxy] at hnb
            exact ⟨fun hh => hnb (by rw [hh]; simp),
              fun hh => hnb (by rw [hh]; simp)⟩
        constructor
        · rw [buildTwins_untouched a rest (setTwins hes a b) huna]
          exact setTwins_getD_a hes a b hab ha
        · rw [buildTwins_untouched b rest (setTwins hes a b) hunb]
          exact setTwins_getD_b hes a b hab hb
    · have hmem' : (k, [a, b]) ∈ rest := by
        rcases List.mem_cons.mp hmem with hh | hh
        · exact absurd hh.symm he
        · exact hh
      have hsep' : ∀ e' ∈ rest, e' = (k, [a, b]) ∨ (a ∉ e'.2 ∧ b ∉ e'.2) :=
        fun e' he' => hsep e' (List.mem_cons_of_mem _ he')
      rcases hsep e (List.mem_cons_self _ _) with hh | ⟨hna, hnb⟩
      · exact absurd hh he
      · rcases e with ⟨k', l⟩
        match l with
        | [] => exact ih hes k hmem' hsep' ha hb
        | [x] => exact ih hes k hmem' hsep' ha hb
        | [x, y] =>
          have hax : a ≠ x := fun hh => hna (by rw [hh]; simp)
          have hay : a ≠ y := fun hh => hna (by rw [hh]; simp)
          have hbx : b ≠ x := fun hh => hnb (by rw [hh]; simp)
          have hby : b ≠ y := fun hh => hnb (by rw [hh]; simp)
          obtain ⟨ha', hb'⟩ := ih (setTwins hes x y) k hmem' hsep'
            (by rw [setTwins_length]; exact ha) (by rw [setTwins_length]; exact hb)
          constructor
          · rw [ha', setTwins_getD_ne hes x y a hax hay]
          · rw [hb', setTwins_getD_ne hes x y b hbx hby]
        | x :: y :: z :: t => exact ih hes k hmem' hsep' ha hb

/-- Helper: the twin-pairing pass changes no half-edge's unordered edge key
(it only writes `twin` fields, which `edgeKey` never reads). -/
theorem edgeKey_buildTwins (entries : List ((ℕ × ℕ) × List ℕ))
    (hes : List HeHalfEdge) (i : ℕ) :
    edgeKey (buildTwins entries hes) i = edgeKey hes i := by
  obtain ⟨t1, h1⟩ := buildTwins_twinOnly entries hes i
  obtain ⟨t2, h2⟩ := buildTwins_twinOnly entries hes (hes.getD i default).next
  simp only [edgeKey, h1, h2]

/-- Helper: the twin-pairing pass changes no key's handle list. -/
theorem edgeHandles_buildTwins (entries : List ((ℕ × ℕ) × List ℕ))
    (hes : List HeHalfEdge) (k : ℕ × ℕ) :
    edgeHandles (buildTwins entries hes) k = edgeHandles hes k := by
  unfold edgeHandles
  rw [buildTwins_length]
  refine List.filter_congr ?_
  intro i _
  simp [edgeKey_buildTwins]

/-- Helper: every half-edge the three insertion loops of `HeMesh::new` create
starts with `twin = None`. -/
theorem preMesh_twin_none (soup : PolygonSoup) :
    ∀ he ∈ (preMesh soup).half_edges, he.twin = none := by
  have hp : ∀ (ps : List String) (m : HeMesh),
      (ps.foldl (fun m p => m.insert_patch p) m).half_edges = m.half_edges := by
    intro ps
    induction ps with
    | nil => intro m; rfl
    | cons p rest ih => intro m; rw [List.foldl_cons, ih]; rfl
  have hv : ∀ (vs : List Vector3) (m : HeMesh),
      (vs.foldl (fun m v => m.insert_vertex v) m).half_edges = m.half_edges := by
    intro vs
    induction vs with
    | nil => intro m; rfl
    | cons v rest ih => intro m; rw [List.foldl_cons, ih]; rfl
  have hf : ∀ (fs : List SoupFace) (m : HeMesh),
      (∀ he ∈ m.half_edges, he.twin = none) →
      ∀ he ∈ (fs.foldl (fun m f => m.insert_face f.vertices f.patch) m).half_edges,
        he.twin = none := by
    intro fs
    induction fs with
    | nil => intro m h; exact h
    | cons f rest ih =>
      intro m h
      rw [List.foldl_cons]
      refine ih _ ?_
      intro he hhe
      simp only [HeMesh.insert_face] at hhe
      rcases List.mem_append.mp hhe with hhe | hhe
      · exact h he hhe
      · rcases List.mem_map.mp hhe with ⟨p, _, rfl⟩
        rfl
  intro he hhe
  unfold preMesh at hhe
  refine hf _ _ ?_ he hhe
  intro he' hhe'
  rw [hv, hp] at hhe'
  cases hhe'

/-- Helper: the invariant of the side-table loop of `build_links`.  Starting
from a table whose every entry for key `k` is exactly the handles of `P` with
key `k` (nonempty, at most two), processing `todo` either hits a third handle
on some key — then some key of `P ++ todo` has three or more handles — or
succeeds with a table carrying the same invariant at `P ++ todo`. -/
theorem buildLinksGo_spec (hes : List HeHalfEdge) :
    ∀ (todo P : List ℕ) (verts : List HeVertex)
      (idx : List ((ℕ × ℕ) × List ℕ)),
      (∀ k l, idxLookup idx k = some l →
        l = keyGrp hes P k ∧ l.length ≤ 2 ∧ l ≠ []) →
      (∀ k, idxLookup idx k = none → keyGrp hes P k = []) →
      (idx.map (fun e => e.1)).Nodup →
      (buildLinksGo hes todo verts idx = none →
        ∃ k, 3 ≤ (keyGrp hes (P ++ todo) k).length) ∧
      (∀ verts' idx', buildLinksGo hes todo verts idx = some (verts', idx') →
        (∀ k l, idxLookup idx' k = some l →
          l = keyGrp hes (P ++ todo) k ∧ l.length ≤ 2 ∧ l ≠ []) ∧
        (∀ k, idxLookup idx' k = none → keyGrp hes (P ++ todo) k = []) ∧
        (idx'.map (fun e => e.1)).Nodup) := by
  intro todo
  induction todo with
  | nil =>
    intro P verts idx hS hN hD
    constructor
    · intro h
      simp only [buildLinksGo] at h
      exact Option.noConfusion h
    · intro verts' idx' h
      simp only [buildLinksGo] at h
      injection h with h
      injection h with h1 h2
      subst h2
      simp only [List.append_nil]
      exact ⟨hS, hN, hD⟩
  | cons i rest ih =>
    intro P verts idx hS hN hD
    rcases hAdd : idxAdd idx (edgeKey hes i) i with _ | idx₁
    · have hErr : buildLinksGo hes (i :: rest) verts idx = none := by
        simp only [buildLinksGo, hAdd]
      unfold idxAdd at hAdd
      rcases hlk : idxLookup idx (edgeKey hes i) with _ | l
      · rw [hlk] at hAdd
        cases hAdd
      · simp only [hlk] at hAdd
        by_cases hl2 : l.length = 2
        · obtain ⟨hgrp, _, _⟩ := hS _ _ hlk
          constructor
          · intro _
            refine ⟨edgeKey hes i, ?_⟩
            rw [keyGrp_append, keyGrp_cons_self, List.length_append, ← hgrp,
              hl2, List.length_cons]
            omega
          · intro verts' idx' h
            rw [hErr] at h
            cases h
        · rw [if_neg hl2] at hAdd
          cases hAdd
    · have hred : buildLinksGo hes (i :: rest) verts idx =
          buildLinksGo hes rest
            (verts.set (hes.getD i default).origin
              { verts.getD (hes.getD i default).origin default with
                  half_edge := i }) idx₁ := by
        simp only [buildLinksGo, hAdd]
      have happ : P ++ i :: rest = (P ++ [i]) ++ rest := List.append_cons P i rest
      unfold idxAdd at hAdd
      rcases hlk : idxLookup idx (edgeKey hes i) with _ | l
      · rw [hlk] at hAdd
        injection hAdd with hAdd
        have hfresh := idxLookup_append_fresh (edgeKey hes i) i idx hlk
        have hS' : ∀ k l', idxLookup (idx ++ [(edgeKey hes i, [i])]) k = some l' →
            l' = keyGrp hes (P ++ [i]) k ∧ l'.length ≤ 2 ∧ l' ≠ [] := by
          intro k l' h
          rw [hfresh k] at h
          by_cases hk : k = edgeKey hes i
          · rw [if_pos hk] at h
            injection h with h
            subst h
            subst hk
            rw [keyGrp_append, hN _ hlk, keyGrp_singleton_self]
            exact ⟨rfl, by simp, by simp⟩
          · rw [if_neg hk] at h
            obtain ⟨h1, h2, h3⟩ := hS _ _ h
            rw [keyGrp_append,
              keyGrp_singleton_ne hes i k (fun hh => hk hh.symm),
              List.append_nil]
            exact ⟨h1, h2, h3⟩
        have hN' : ∀ k, idxLookup (idx ++ [(edgeKey hes i, [i])]) k = none →
            keyGrp hes (P ++ [i]) k = [] := by
          intro k h
          rw [hfresh k] at h
          by_cases hk : k = edgeKey hes i
          · rw [if_pos hk] at h
            cases h
          · rw [if_neg hk] at h
            rw [keyGrp_append,
              keyGrp_singleton_ne hes i k (fun hh => hk hh.symm),
              List.append_nil]
            exact hN _ h
        have hD' : ((idx ++ [(edgeKey hes i, [i])]).map (fun e => e.1)).Nodup := by
          rw [List.map_append, List.nodup_append]
          refine ⟨hD, by simp, ?_⟩
          intro x hx hx2
          simp only [List.map_cons, List.map_nil, List.mem_singleton] at hx2
          subst hx2
          exact idxLookup_none_not_mem _ idx hlk hx
        subst hAdd
        obtain ⟨hnone, hsome⟩ := ih (P ++ [i])
          (verts.set (hes.getD i default).origin
            { verts.getD (hes.getD i default).origin default with
                half_edge := i })
          (idx ++ [(edgeKey hes i, [i])]) hS' hN' hD'
        rw [happ, hred]
        exact ⟨hnone, hsome⟩
      · simp only [hlk] at hAdd
        obtain ⟨hgrp, hlen, hne⟩ := hS _ _ hlk
        by_cases hl2 : l.length = 2
        · rw [if_pos hl2] at hAdd
          cases hAdd
        · rw [if_neg hl2] at hAdd
          injection hAdd with hAdd
          have hS' : ∀ k l',
              idxLookup (idxUpdate idx (edgeKey hes i) (l ++ [i])) k = some l' →
              l' = keyGrp hes (P ++ [i]) k ∧ l'.length ≤ 2 ∧ l' ≠ [] := by
            intro k l' h
            by_cases hk : k = edgeKey hes i
            · subst hk
              rw [idxLookup_update_self] at h
              injection h with h
              subst h
              rw [keyGrp_append, keyGrp_singleton_self, ← hgrp]
              refine ⟨rfl, ?_, by simp⟩
              rw [List.length_append, List.length_cons, List.length_nil]
              omega
            · rw [idxLookup_update_other _ _ _ hk] at h
              obtain ⟨h1, h2, h3⟩ := hS _ _ h
              rw [keyGrp_append,
                keyGrp_singleton_ne hes i k (fun hh => hk hh.symm),
                List.append_nil]
              exact ⟨h1, h2, h3⟩
          have hN' : ∀ k,
              idxLookup (idxUpdate idx (edgeKey hes i) (l ++ [i])) k = none →
              keyGrp hes (P ++ [i]) k = [] := by
            intro k h
            by_cases hk : k = edgeKey hes i
            · subst hk
              rw [idxLookup_update_self] at h
              cases h
            · rw [idxLookup_update_other _ _ _ hk] at h
              rw [keyGrp_append,
                keyGrp_singleton_ne hes i k (fun hh => hk hh.symm),
                List.append_nil]
              exact hN _ h
          have hD' : ((idxUpdate idx (edgeKey hes i) (l ++ [i])).map
              (fun e => e.1)).Nodup := by
            rw [idxUpdate_keys_of_mem _ _ _ _ hlk]
            exact hD
          subst hAdd
          obtain ⟨hnone, hsome⟩ := ih (P ++ [i])
            (verts.set (hes.getD i default).origin
              { verts.getD (hes.getD i default).origin default with
                  half_edge := i })
            (idxUpdate idx (edgeKey hes i) (l ++ [i])) hS' hN' hD'
          rw [happ, hred]
          exact ⟨hnone, hsome⟩

/-- **C3.**  For every polygon soup whose face vertex indices are in range
(the inputs the Rust construction processes without an out-of-bounds panic),
`HeMesh::new` returns `Err(NonManifold)` iff some unordered vertex pair is
referenced by three or more half-edges; when it returns `Ok`, every pair
referenced by exactly two half-edges has those two half-edges as mutual
twins, and every pair referenced by exactly one half-edge leaves that
half-edge's `twin` equal to `None`. -/
theorem c3_nonmanifold_iff_twin_pairing (soup : PolygonSoup)
    (_hv : ValidSoup soup) :
    (HeMesh.new soup = .error .nonManifold ↔
      ∃ k, 3 ≤ (edgeHandles (preMesh soup).half_edges k).length) ∧
    (∀ m', HeMesh.new soup = .ok m' →
      (∀ k a b, edgeHandles m'.half_edges k = [a, b] →
        (m'.half_edges.getD a default).twin = some b ∧
        (m'.half_edges.getD b default).twin = some a) ∧
      (∀ k a, edgeHandles m'.half_edges k = [a] →
        (m'.half_edges.getD a default).twin = none)) := by
  obtain ⟨hnone, hsome⟩ := buildLinksGo_spec (preMesh soup).half_edges
    (List.range (preMesh soup).half_edges.length) [] (preMesh soup).vertices []
    (fun _ _ h => Option.noConfusion h) (fun _ _ => rfl) List.nodup_nil
  have hkey : ∀ k, keyGrp (preMesh soup).half_edges
      ([] ++ List.range (preMesh soup).half_edges.length) k =
      edgeHandles (preMesh soup).half_edges k := fun _ => rfl
  rcases hrun : buildLinksGo (preMesh soup).half_edges
      (List.range (preMesh soup).half_edges.length) (preMesh soup).vertices []
    with _ | ⟨verts1, idx1⟩
  · have hnew : HeMesh.new soup = .error .nonManifold := by
      simp only [HeMesh.new, HeMesh.build_links, hrun]
    obtain ⟨k, hk⟩ := hnone hrun
    refine ⟨⟨fun _ => ⟨k, ?_⟩, fun _ => hnew⟩, ?_⟩
    · rw [← hkey k]
      exact hk
    · intro m' hm'
      rw [hnew] at hm'
      cases hm'
  · obtain ⟨hS, hN, hD⟩ := hsome verts1 idx1 hrun
    have hnew : HeMesh.new soup = .ok
        { preMesh soup with
            vertices := verts1,
            half_edges := buildTwins idx1 (preMesh soup).half_edges } := by
      simp only [HeMesh.new, HeMesh.build_links, hrun]
    constructor
    · constructor
      · intro herr
        rw [hnew] at herr
        cases herr
      · rintro ⟨k, hk⟩
        exfalso
        rcases hl : idxLookup idx1 k with _ | l
        · have h0 := hN k hl
          rw [hkey k] at h0
          rw [h0] at hk
          simp at hk
        · obtain ⟨h1, h2, _⟩ := hS k l hl
          rw [hkey k] at h1
          rw [← h1] at hk
          omega
    · intro m' hm'
      rw [hnew] at hm'
      injection hm' with hm'
      have hm'he : m'.half_edges = buildTwins idx1 (preMesh soup).half_edges := by
        rw [← hm']
      rw [hm'he]
      constructor
      · intro k a b hab
        rw [edgeHandles_buildTwins] at hab
        have hnd : (edgeHandles (preMesh soup).half_edges k).Nodup :=
          List.Nodup.filter _ (List.nodup_range _)
        rw [hab] at hnd
        have hane : a ≠ b := by
          intro hh
          exact (List.nodup_cons.mp hnd).1 (by rw [hh]; simp)
        have hamem : a ∈ edgeHandles (preMesh soup).half_edges k := by
          rw [hab]; simp
        have hbmem : b ∈ edgeHandles (preMesh soup).half_edges k := by
          rw [hab]; simp
        have ha : a < (preMesh soup).half_edges.length :=
          List.mem_range.mp (List.mem_filter.mp hamem).1
        have hb : b < (preMesh soup).half_edges.length :=
          List.mem_range.mp (List.mem_filter.mp hbmem).1
        have hkey_a : edgeKey (preMesh soup).half_edges a = k := by
          have := (List.mem_filter.mp hamem).2
          simpa using this
        have hkey_b : edgeKey (preMesh soup).half_edges b = k := by
          have := (List.mem_filter.mp hbmem).2
          simpa using this
        have hgrpk : keyGrp (preMesh soup).half_edges
            ([] ++ List.range (preMesh soup).half_edges.length) k = [a, b] := by
          rw [hkey k]
          exact hab
        rcases hl : idxLookup idx1 k with _ | l
        · rw [hN k hl] at hgrpk
          cases hgrpk
        · obtain ⟨h1, _, _⟩ := hS k l hl
          have hl' : l = [a, b] := by rw [h1]; exact hgrpk
          subst hl'
          have hentry : (k, [a, b]) ∈ idx1 := idxLookup_mem k [a, b] idx1 hl
          have hsep : ∀ e ∈ idx1, e = (k, [a, b]) ∨ (a ∉ e.2 ∧ b ∉ e.2) := by
            intro e he
            by_cases hae : a ∈ e.2 ∨ b ∈ e.2
            · left
              have hlke := idxLookup_of_mem_nodup idx1 hD e he
              obtain ⟨h1', _, _⟩ := hS e.1 e.2 hlke
              have hek : e.1 = k := by
                rcases hae with hae | hae
                · have hmemg : a ∈ keyGrp (preMesh soup).half_edges
                      ([] ++ List.range (preMesh soup).half_edges.length) e.1 := by
                    rw [← h1']
                    exact hae
                  rw [← hkey_a]
                  exact (keyGrp_mem hmemg).2.symm
                · have hmemg : b ∈ keyGrp (preMesh soup).half_edges
                      ([] ++ List.range (preMesh soup).half_edges.length) e.1 := by
                    rw [← h1']
                    exact hae
                  rw [← hkey_b]
                  exact (keyGrp_mem hmemg).2.symm
              have hev : e.2 = [a, b] := by
                rw [h1', hek, hgrpk]
              exact Prod.ext hek hev
            · right
              push_neg at hae
              exact hae
          have hpair := buildTwins_pair a b hane idx1
            (preMesh soup).half_edges k hentry hsep ha hb
          exact ⟨by rw [hpair.1], by rw [hpair.2]⟩
      · intro k a hab
        rw [edgeHandles_buildTwins] at hab
        have hamem : a ∈ edgeHandles (preMesh soup).half_edges k := by
          rw [hab]; simp
        have ha : a < (preMesh soup).half_edges.length :=
          List.mem_range.mp (List.mem_filter.mp hamem).1
        have hkey_a : edgeKey (preMesh soup).half_edges a = k := by
          have := (List.mem_filter.mp hamem).2
          simpa using this
        have hgrpk : keyGrp (preMesh soup).half_edges
            ([] ++ List.range (preMesh soup).half_edges.length) k = [a] := by
          rw [hkey k]
          exact hab
        have hun : ∀ e ∈ idx1, ∀ x y, e.2 = [x, y] → a ≠ x ∧ a ≠ y := by
          intro e he x y hxy
          have hlke := idxLookup_of_mem_nodup idx1 hD e he
          obtain ⟨h1', _, _⟩ := hS e.1 e.2 hlke
          have hax : ∀ z, a = z → z ∈ e.2 → False := by
            intro z hz hzmem
            subst hz
            have hmemg : a ∈ keyGrp (preMesh soup).half_edges
                ([] ++ List.range (preMesh soup).half_edges.length) e.1 := by
              rw [← h1']
              exact hzmem
            have hek : e.1 = k := by
              rw [← hkey_a]
              exact (keyGrp_mem hmemg).2.symm
            rw [hek, hgrpk] at h1'
            rw [hxy] at h1'
            simp at h1'
          exact ⟨fun hh => hax x hh (by rw [hxy]; simp),
            fun hh => hax y hh (by rw [hxy]; simp)⟩
        rw [buildTwins_untouched a idx1 (preMesh soup).half_edges hun]
        refine preMesh_twin_none soup _ ?_
        rw [List.getD_eq_getElem (preMesh soup).half_edges default ha]
        exact List.getElem_mem ha

/-- Helper: patch lookup after appending one entry (the appended entry wins,
matching `HashMap::insert` overwrite semantics). -/
theorem lookupPatchIdx_append_one (e : String × ℕ) (s : String) :
    ∀ l : List (String × ℕ),
      lookupPatchIdx (l ++ [e]) s =
        if e.1 = s then some e.2 else lookupPatchIdx l s := by
  intro l
  induction l with
  | nil => simp [lookupPatchIdx]
  | cons a rest ih =>
    simp only [List.cons_append, lookupPatchIdx, List.append_eq]
    rw [ih]
    by_cases he : e.1 = s
    · simp only [if_pos he]
    · simp only [if_neg he]

/-- Helper: a name the patch map contains looks up to some index. -/
theorem lookupPatchIdx_isSome_of_contains (s : String) :
    ∀ l : List (String × ℕ), containsPatch l s = true →
      ∃ v, lookupPatchIdx l s = some v := by
  intro l
  induction l with
  | nil => intro h; exact Bool.noConfusion h
  | cons a rest ih =>
    intro h
    rcases hr : lookupPatchIdx rest s with _ | v
    · rw [containsPatch, List.any_cons, Bool.or_eq_true] at h
      rcases h with h | h
      · refine ⟨a.2, ?_⟩
        simp only [lookupPatchIdx, hr]
        rw [if_pos (by simpa using h)]
      · obtain ⟨v, hv⟩ := ih h
        rw [hr] at hv
        cases hv
    · exact ⟨v, by simp only [lookupPatchIdx, hr]⟩

/-- Helper: a successful patch lookup returns some entry's value. -/
theorem lookupPatchIdx_mem (s : String) :
    ∀ (l : List (String × ℕ)) (v : ℕ),
      lookupPatchIdx l s = some v → ∃ e ∈ l, e.2 = v := by
  intro l
  induction l with
  | nil => intro v h; cases h
  | cons a rest ih =>
    intro v h
    rw [lookupPatchIdx] at h
    rcases hr : lookupPatchIdx rest s with _ | v'
    · rw [hr] at h
      by_cases ha : a.1 = s
      · simp only [if_pos ha] at h
        injection h with h
        exact ⟨a, List.mem_cons_self a rest, h⟩
      · simp only [if_neg ha] at h
        cases h
    · rw [hr] at h
      injection h with h
      subst h
      obtain ⟨e, he, hev⟩ := ih v' hr
      exact ⟨e, List.mem_cons_of_mem _ he, hev⟩

/-- Helper: `getD` into the mapped right half of an append. -/
theorem getD_append_map {α β : Type} [Inhabited α] [Inhabited β]
    (l1 : List β) (l2 : List α) (f : α → β) (j : ℕ) (hj : j < l2.length) :
    (l1 ++ l2.map f).getD (l1.length + j) default = f (l2.getD j default) := by
  rw [List.getD_append_right _ _ _ _ (by omega), Nat.add_sub_cancel_left,
    List.getD_eq_getElem?_getD, List.getElem?_map, List.getElem?_eq_getElem hj,
    List.getD_eq_getElem l2 default hj]
  rfl

/-- Helper: the patch loop of `merge` keeps every map value a valid index
into the accumulated patch list, only grows that list, and ends with every
processed patch's name in the map. -/
theorem mergePatchFold_spec (ps : List HePatch) :
    ∀ pr : List (String × ℕ) × List HePatch,
      (∀ e ∈ pr.1, e.2 < pr.2.length) →
      (∀ e ∈ (ps.foldl mergePatchStep pr).1,
        e.2 < (ps.foldl mergePatchStep pr).2.length) ∧
      pr.2.length ≤ (ps.foldl mergePatchStep pr).2.length ∧
      (∀ s v, lookupPatchIdx pr.1 s = some v →
        ∃ v', lookupPatchIdx (ps.foldl mergePatchStep pr).1 s = some v') ∧
      (∀ patch ∈ ps, ∃ v,
        lookupPatchIdx (ps.foldl mergePatchStep pr).1 patch.name = some v) := by
  induction ps with
  | nil =>
    intro pr hA
    exact ⟨hA, le_refl _, fun s v h => ⟨v, h⟩,
      fun p hp => absurd hp (List.not_mem_nil p)⟩
  | cons p rest ih =>
    intro pr hA
    rw [List.foldl_cons]
    have hstep : (∀ e ∈ (mergePatchStep pr p).1,
          e.2 < (mergePatchStep pr p).2.length) ∧
        pr.2.length ≤ (mergePatchStep pr p).2.length ∧
        (∀ s v, lookupPatchIdx pr.1 s = some v →
          ∃ v', lookupPatchIdx (mergePatchStep pr p).1 s = some v') ∧
        (∃ v, lookupPatchIdx (mergePatchStep pr p).1 p.name = some v) := by
      unfold mergePatchStep
      by_cases hc : containsPatch pr.1 p.name
      · rw [if_pos hc]
        exact ⟨hA, le_refl _, fun s v h => ⟨v, h⟩,
          lookupPatchIdx_isSome_of_contains _ _ hc⟩
      · rw [if_neg hc]
        refine ⟨?_, ?_, ?_, ?_⟩
        · show ∀ e ∈ pr.1 ++ [(p.name, pr.2.length)],
            e.2 < (pr.2 ++ [p]).length
          intro e he
          rw [List.length_append]
          rcases List.mem_append.mp he with he | he
          · have := hA e he
            omega
          · rw [List.mem_singleton] at he
            subst he
            simp
        · show pr.2.length ≤ (pr.2 ++ [p]).length
          rw [List.length_append]
          omega
        · show ∀ s v, lookupPatchIdx pr.1 s = some v →
            ∃ v', lookupPatchIdx (pr.1 ++ [(p.name, pr.2.length)]) s = some v'
          intro s v h
          rw [lookupPatchIdx_append_one]
          by_cases hn : p.name = s
          · rw [if_pos hn]
            exact ⟨pr.2.length, rfl⟩
          · rw [if_neg hn]
            exact ⟨v, h⟩
        · show ∃ v, lookupPatchIdx (pr.1 ++ [(p.name, pr.2.length)]) p.name =
            some v
          refine ⟨pr.2.length, ?_⟩
          rw [lookupPatchIdx_append_one, if_pos rfl]
    obtain ⟨hA1, hB1, hC1, hp1⟩ := hstep
    obtain ⟨hA2, hB2, hC2, hD2⟩ := ih (mergePatchStep pr p) hA1
    refine ⟨hA2, le_trans hB1 hB2, ?_, ?_⟩
    · intro s v h
      obtain ⟨v', hv'⟩ := hC1 s v h
      exact hC2 s v' hv'
    · intro patch hpatch
      rcases List.mem_cons.mp hpatch with rfl | hpatch
      · obtain ⟨v, hv⟩ := hp1
        exact hC2 _ v hv
      · exact hD2 patch hpatch

/-- Helper: `merge`'s patch map sends every entry below the merged patch
count, never shrinks the receiver's patch list, and resolves every name of
`other`'s patches. -/
theorem mergePatches_spec (m other : HeMesh) :
    (∀ e ∈ (mergePatches m other).1, e.2 < (mergePatches m other).2.length) ∧
    m.patches.length ≤ (mergePatches m other).2.length ∧
    (∀ patch ∈ other.patches, ∃ v,
      lookupPatchIdx (mergePatches m other).1 patch.name = some v) := by
  have hinit : ∀ e ∈ m.patches.enum.map (fun p => (p.2.name, p.1)),
      e.2 < m.patches.length := by
    intro e he
    rcases List.mem_map.mp he with ⟨p, hp, rfl⟩
    exact List.fst_lt_of_mem_enum hp
  obtain ⟨hA, hB, _, hD⟩ := mergePatchFold_spec other.patches
    (m.patches.enum.map (fun p => (p.2.name, p.1)), m.patches) hinit
  exact ⟨hA, hB, hD⟩

/-- Helper: lengths of the merged arrays. -/
theorem merge_lengths (m other : HeMesh) :
    (m.merge other).vertices.length = m.vertices.length + other.vertices.length ∧
    (m.merge other).faces.length = m.faces.length + other.faces.length ∧
    (m.merge other).half_edges.length =
      m.half_edges.length + other.half_edges.length := by
  refine ⟨?_, ?_, ?_⟩ <;> simp [HeMesh.merge]

/-- Helper: the merged vertex records, left (copied) and right (offset). -/
theorem merge_vertices_getD (m other : HeMesh) :
    (∀ i, i < m.vertices.length →
      (m.merge other).vertices.getD i default = m.vertices.getD i default) ∧
    (∀ j, j < other.vertices.length →
      (m.merge other).vertices.getD (m.vertices.length + j) default =
        { other.vertices.getD j default with
            half_edge := (other.vertices.getD j default).half_edge +
              m.half_edges.length }) := by
  constructor
  · intro i hi
    exact List.getD_append _ _ _ _ hi
  · intro j hj
    exact getD_append_map m.vertices other.vertices
      (fun v => { v with half_edge := v.half_edge + m.half_edges.length }) j hj

/-- Helper: the merged face records, left (copied) and right (offset, with
patch names resolved through the merged patch map). -/
theorem merge_faces_getD (m other : HeMesh) :
    (∀ i, i < m.faces.length →
      (m.merge other).faces.getD i default = m.faces.getD i default) ∧
    (∀ j, j < other.faces.length →
      (m.merge other).faces.getD (m.faces.length + j) default =
        ⟨(other.faces.getD j default).half_edge + m.half_edges.length,
         (other.faces.getD j default).patch.map (fun p =>
           (lookupPatchIdx (mergePatches m other).1
             (other.patches.getD p default).name).getD 0)⟩) := by
  constructor
  · intro i hi
    exact List.getD_append _ _ _ _ hi
  · intro j hj
    exact getD_append_map m.faces other.faces
      (fun f => ⟨f.half_edge + m.half_edges.length,
        f.patch.map (fun p =>
          (lookupPatchIdx (mergePatches m other).1
            (other.patches.getD p default).name).getD 0)⟩) j hj

/-- Helper: the merged half-edge records, left (copied) and right (offset). -/
theorem merge_half_edges_getD (m other : HeMesh) :
    (∀ i, i < m.half_edges.length →
      (m.merge other).half_edges.getD i default = m.half_edges.getD i default) ∧
    (∀ j, j < other.half_edges.length →
      (m.merge other).half_edges.getD (m.half_edges.length + j) default =
        ⟨(other.half_edges.getD j default).origin + m.vertices.length,
         (other.half_edges.getD j default).face + m.faces.length,
         (other.half_edges.getD j default).prev + m.half_edges.length,
         (other.half_edges.getD j default).next + m.half_edges.length,
         (other.half_edges.getD j default).twin.map
           (fun t => t + m.half_edges.length)⟩) := by
  constructor
  · intro i hi
    exact List.getD_append _ _ _ _ hi
  · intro j hj
    exact getD_append_map m.half_edges other.half_edges
      (fun h => ⟨h.origin + m.vertices.length, h.face + m.faces.length,
        h.prev + m.half_edges.length, h.next + m.half_edges.length,
        h.twin.map (fun t => t + m.half_edges.length)⟩) j hj

/-- **C10.**  `merge` preserves the structural half-edge invariants: on two
meshes with valid handles, mutual `prev`/`next`, anchored per-face and
per-vertex handles, and mutual twins running in opposite directions, the
merged mesh satisfies the same invariants — the appended records' handles are
uniformly offset by the receiver's prior counts, no twin link crosses the
seam, and merged patch indices stay in range. -/
theorem c10_merge_preserves_invariants (m other : HeMesh)
    (hm : HeInv m) (ho : HeInv other) : HeInv (m.merge other) := by
  obtain ⟨hmV, hmF, hmH⟩ := hm
  obtain ⟨hoV, hoF, hoH⟩ := ho
  obtain ⟨hlV, hlF, hlH⟩ := merge_lengths m other
  obtain ⟨hgVl, hgVr⟩ := merge_vertices_getD m other
  obtain ⟨hgFl, hgFr⟩ := merge_faces_getD m other
  obtain ⟨hgHl, hgHr⟩ := merge_half_edges_getD m other
  obtain ⟨hPA, hPB, hPD⟩ := mergePatches_spec m other
  have hlP : (mergePatches m other).2.length = (m.merge other).patches.length :=
    rfl
  refine ⟨?_, ?_, ?_⟩
  · intro i hi
    rw [List.mem_range, hlV] at hi
    by_cases hiL : i < m.vertices.length
    · obtain ⟨h1, h2⟩ := hmV i (List.mem_range.mpr hiL)
      rw [hgVl i hiL]
      constructor
      · rw [hlH]; omega
      · rw [hgHl _ h1]
        exact h2
    · obtain ⟨j, rfl⟩ : ∃ j, i = m.vertices.length + j :=
        ⟨i - m.vertices.length, by omega⟩
      have hj : j < other.vertices.length := by omega
      obtain ⟨h1, h2⟩ := hoV j (List.mem_range.mpr hj)
      rw [hgVr j hj]
      constructor
      · show (other.vertices.getD j default).half_edge + m.half_edges.length <
          (m.merge other).half_edges.length
        rw [hlH]; omega
      · show ((m.merge other).half_edges.getD
            ((other.vertices.getD j default).half_edge + m.half_edges.length)
            default).origin = m.vertices.length + j
        rw [Nat.add_comm _ m.half_edges.length, hgHr _ h1]
        show (other.half_edges.getD (other.vertices.getD j default).half_edge
            default).origin + m.vertices.length = m.vertices.length + j
        rw [h2]
        omega
  · intro i hi
    rw [List.mem_range, hlF] at hi
    by_cases hiL : i < m.faces.length
    · obtain ⟨h1, h2, h3⟩ := hmF i (List.mem_range.mpr hiL)
      rw [hgFl i hiL]
      refine ⟨?_, ?_, ?_⟩
      · rw [hlH]; omega
      · rw [hgHl _ h1]
        exact h2
      · intro p hp
        have := h3 p hp
        rw [← hlP]
        omega
    · obtain ⟨j, rfl⟩ : ∃ j, i = m.faces.length + j :=
        ⟨i - m.faces.length, by omega⟩
      have hj : j < other.faces.length := by omega
      obtain ⟨h1, h2, h3⟩ := hoF j (List.mem_range.mpr hj)
      rw [hgFr j hj]
      refine ⟨?_, ?_, ?_⟩
      · show (other.faces.getD j default).half_edge + m.half_edges.length <
          (m.merge other).half_edges.length
        rw [hlH]; omega
      · show ((m.merge other).half_edges.getD
            ((other.faces.getD j default).half_edge + m.half_edges.length)
            default).face = m.faces.length + j
        rw [Nat.add_comm _ m.half_edges.length, hgHr _ h1]
        show (other.half_edges.getD (other.faces.getD j default).half_edge
            default).face + m.faces.length = m.faces.length + j
        rw [h2]
        omega
      · intro p hp
        rcases hpatch : (other.faces.getD j default).patch with _ | p0
        · rw [hpatch] at hp
          simp at hp
        · rw [hpatch] at hp
          simp only [Option.map_some', Option.toList_some,
            List.mem_singleton] at hp
          subst hp
          have hp0 := h3 p0 (by rw [hpatch]; simp)
          have hmem : other.patches.getD p0 default ∈ other.patches := by
            rw [List.getD_eq_getElem other.patches default hp0]
            exact List.getElem_mem hp0
          obtain ⟨v, hv⟩ := hPD _ hmem
          rw [hv]
          show v < (m.merge other).patches.length
          obtain ⟨e, hemem, hev⟩ := lookupPatchIdx_mem _ _ v hv
          have := hPA e hemem
          rw [← hlP]
          omega
  · intro h hhe
    rw [List.mem_range, hlH] at hhe
    by_cases hL : h < m.half_edges.length
    · obtain ⟨h1, h2, h3, h4, h5, h6, h7, h8⟩ := hmH h (List.mem_range.mpr hL)
      rw [hgHl h hL]
      refine ⟨?_, ?_, ?_, ?_, ?_, ?_, ?_, ?_⟩
      · rw [hlV]; omega
      · rw [hlF]; omega
      · rw [hlH]; omega
      · rw [hlH]; omega
      · rw [hgHl _ h4]
        exact h5
      · rw [hgHl _ h3]
        exact h6
      · rw [hgHl _ h4]
        exact h7
      · intro t ht
        obtain ⟨t1, t2, t3⟩ := h8 t ht
        refine ⟨?_, ?_, ?_⟩
        · rw [hlH]; omega
        · rw [hgHl _ t1]
          exact t2
        · rw [hgHl _ t1, hgHl _ h4]
          exact t3
    · obtain ⟨j, rfl⟩ : ∃ j, h = m.half_edges.length + j :=
        ⟨h - m.half_edges.length, by omega⟩
      have hj : j < other.half_edges.length := by omega
      obtain ⟨h1, h2, h3, h4, h5, h6, h7, h8⟩ := hoH j (List.mem_range.mpr hj)
      rw [hgHr j hj]
      refine ⟨?_, ?_, ?_, ?_, ?_, ?_, ?_, ?_⟩
      · show (other.half_edges.getD j default).origin + m.vertices.length <
          (m.merge other).vertices.length
        rw [hlV]; omega
      · show (other.half_edges.getD j default).face + m.faces.length <
          (m.merge other).faces.length
        rw [hlF]; omega
      · show (other.half_edges.getD j default).prev + m.half_edges.length <
          (m.merge other).half_edges.length
        rw [hlH]; omega
      · show (other.half_edges.getD j default).next + m.half_edges.length <
          (m.merge other).half_edges.length
        rw [hlH]; omega
      · show ((m.merge other).half_edges.getD
            ((other.half_edges.getD j default).next + m.half_edges.length)
            default).prev = m.half_edges.length + j
        rw [Nat.add_comm _ m.half_edges.length, hgHr _ h4]
        show (other.half_edges.getD (other.half_edges.getD j default).next
            default).prev + m.half_edges.length = m.half_edges.length + j
        rw [h5]
        omega
      · show ((m.merge other).half_edges.getD
            ((other.half_edges.getD j default).prev + m.half_edges.length)
            default).next = m.half_edges.length + j
        rw [Nat.add_comm _ m.half_edges.length, hgHr _ h3]
        show (other.half_edges.getD (other.half_edges.getD j default).prev
            default).next + m.half_edges.length = m.half_edges.length + j
        rw [h6]
        omega
      · show ((m.merge other).half_edges.getD
            ((other.half_edges.getD j default).next + m.half_edges.length)
            default).face =
          (other.half_edges.getD j default).face + m.faces.length
        rw [Nat.add_comm _ m.half_edges.length, hgHr _ h4]
        show (other.half_edges.getD (other.half_edges.getD j default).next
            default).face + m.faces.length =
          (other.half_edges.getD j default).face + m.faces.length
        rw [h7]
      · intro t ht
        rcases htw : (other.half_edges.getD j default).twin with _ | t0
        · rw [htw] at ht
          simp at ht
        · rw [htw] at ht
          simp only [Option.map_some', Option.toList_some,
            List.mem_singleton] at ht
          subst ht
          obtain ⟨t1, t2, t3⟩ := h8 t0 (by rw [htw]; simp)
          refine ⟨?_, ?_, ?_⟩
          · show t0 + m.half_edges.length < (m.merge other).half_edges.length
            rw [hlH]; omega
          · show ((m.merge other).half_edges.getD (t0 + m.half_edges.length)
                default).twin = some (m.half_edges.length + j)
            rw [Nat.add_comm t0 m.half_edges.length, hgHr _ t1]
            show (other.half_edges.getD t0 default).twin.map
                (fun t => t + m.half_edges.length) =
              some (m.half_edges.length + j)
            rw [t2]
            show some (j + m.half_edges.length) = some (m.half_edges.length + j)
            rw [Nat.add_comm j m.half_edges.length]
          · show ((m.merge other).half_edges.getD (t0 + m.half_edges.length)
                default).origin =
              ((m.merge other).half_edges.getD
                ((other.half_edges.getD j default).next + m.half_edges.length)
                default).origin
            rw [Nat.add_comm t0 m.half_edges.length, hgHr _ t1,
              Nat.add_comm (other.half_edges.getD j default).next
                m.half_edges.length, hgHr _ h4]
            show (other.half_edges.getD t0 default).origin + m.vertices.length =
              (other.half_edges.getD (other.half_edges.getD j default).next
                default).origin + m.vertices.length
            rw [t3]

set_option maxRecDepth 100000 in
/-- C10 (witness): the consistently oriented closed tetrahedron and the lone
triangle (with distinct patch names) each satisfy the structural invariants,
and so does their merge. -/
theorem c10_merge_preserves_invariants_witness :
    HeInv (goodTetMesh.merge triMesh) :=
  c10_merge_preserves_invariants goodTetMesh triMesh
    (by unfold HeInv; decide) (by unfold HeInv; decide)

set_option maxRecDepth 100000 in
/-- C3 (witness): the closed tetrahedron soup has in-range indices, its
construction succeeds, edge `(0, 2)` carries exactly the half-edge handles
`0` and `9`, and the theorem makes them mutual twins. -/
theorem c3_nonmanifold_iff_twin_pairing_witness :
    (tetMesh.half_edges.getD 0 default).twin = some 9 ∧
    (tetMesh.half_edges.getD 9 default).twin = some 0 := by
  have h := (c3_nonmanifold_iff_twin_pairing tetSoup
    (by unfold ValidSoup; decide)).2 tetMesh (by decide)
  exact h.1 (0, 2) 0 9 (by decide)

set_option maxRecDepth 100000 in
/-- C2 (counterexample).  Inserting 101 items that intersect every box into a
fresh unit octree: the 101st insert splits the root, every child inherits all
101 items, and `insert` returns with eight leaves at depth `1 < MAX_DEPTH`
holding 101 > `MAX_ITEMS_PER_NODE` items each — the situation the claim says
can never be observed after an insert. -/
theorem c2_counterexample_overfull_child_leaf : c2AfterHasOverFullLeaf = true := by
  decide

end Meshr
